import Mathlib

/-!
# Cache-aside lookup (`getData`) of `main.go`

A shallow embedding of `(*API).getData` together with the library calls it makes:

* `url.PathEscape` and the `fmt.Sprintf` that builds the upstream address;
* `encoding/json`: `Decoder.Decode`, `Unmarshal` and `Marshal` at the type
  `[]NominatimResponse`;
* the Redis client calls `Get` and `Set`, as explicit state passing over a store with
  expiry times.

Go strings and byte slices are lists of bytes (`Nat` values below 256).
-/

namespace GeoCache

/-- A Go `string` or `[]byte`: a sequence of bytes. -/
abbrev Bytes := List Nat

/-- The bytes of an ASCII string literal. -/
def ascii (s : String) : Bytes := s.toList.map Char.toNat

/-! ## `net/url`: `PathEscape` -/

/-- The test `'a' <= c && c <= 'z' || 'A' <= c && c <= 'Z' || '0' <= c && c <= '9'`. -/
def isAlnum (c : Nat) : Bool :=
  (97 ≤ c && c ≤ 122) || (65 ≤ c && c ≤ 90) || (48 ≤ c && c ≤ 57)

/-- `shouldEscape(c, encodePathSegment)` of `net/url`: alphanumerics and `- _ . ~` are
kept; of the reserved characters `$ & + , / : ; = ? @` only `/ ; , ?` are escaped in a
path segment; every other byte is escaped. -/
def shouldEscapePathSegment (c : Nat) : Bool :=
  if isAlnum c then false
  else if c = 45 ∨ c = 95 ∨ c = 46 ∨ c = 126 then false            -- - _ . ~
  else if c = 36 ∨ c = 38 ∨ c = 43 ∨ c = 44 ∨ c = 47 ∨ c = 58 ∨ c = 59 ∨ c = 61
            ∨ c = 63 ∨ c = 64 then                                   -- $ & + , / : ; = ? @
    decide (c = 47 ∨ c = 59 ∨ c = 44 ∨ c = 63)                       -- / ; , ?
  else true

/-- `shouldEscape(c, encodeQueryComponent)` of `net/url`: only alphanumerics and
`- _ . ~` are kept. -/
def shouldEscapeQueryComponent (c : Nat) : Bool :=
  if isAlnum c then false
  else if c = 45 ∨ c = 95 ∨ c = 46 ∨ c = 126 then false
  else true

/-- The table `upperhex = "0123456789ABCDEF"`, indexed by a nibble. -/
def upperhex (n : Nat) : Nat := if n < 10 then 48 + n else 55 + n

/-- `url.PathEscape`: every byte for which `shouldEscape` holds becomes `%XX`. -/
def PathEscape : Bytes → Bytes
  | [] => []
  | c :: s =>
    if shouldEscapePathSegment c then
      37 :: upperhex (c / 16 % 16) :: upperhex (c % 16) :: PathEscape s
    else c :: PathEscape s

/-- `url.QueryEscape`: a space becomes `+`, every other byte for which `shouldEscape`
holds becomes `%XX`. -/
def QueryEscape : Bytes → Bytes
  | [] => []
  | c :: s =>
    if c = 32 then 43 :: QueryEscape s
    else if shouldEscapeQueryComponent c then
      37 :: upperhex (c / 16 % 16) :: upperhex (c % 16) :: QueryEscape s
    else c :: QueryEscape s

/-- The address `fmt.Sprintf("https://nominatim.openstreetmap.org/search?q=%s&format=json",
escapedQ)` with `escapedQ := url.PathEscape(q)`. -/
def address (q : Bytes) : Bytes :=
  ascii "https://nominatim.openstreetmap.org/search?q=" ++ PathEscape q ++ ascii "&format=json"

/-- The address as it would be built with `url.QueryEscape`, the escaping of `net/url`
for a query component, in place of `url.PathEscape`. -/
def addressQueryEscaped (q : Bytes) : Bytes :=
  ascii "https://nominatim.openstreetmap.org/search?q=" ++ QueryEscape q ++ ascii "&format=json"

/-! ### Reading a URL back: `url.ParseQuery`

The receiving side of the upstream request splits the text after `?` into parameters.
-/

/-- The text after the first `?` of a URL (`RawQuery`); a `#` ends it. -/
def rawQuery (u : Bytes) : Bytes :=
  ((u.dropWhile (· ≠ 63)).drop 1).takeWhile (· ≠ 35)

/-- `unhex`: the value of a hexadecimal digit. -/
def unhex (c : Nat) : Option Nat :=
  if 48 ≤ c ∧ c ≤ 57 then some (c - 48)
  else if 97 ≤ c ∧ c ≤ 102 then some (c - 97 + 10)
  else if 65 ≤ c ∧ c ≤ 70 then some (c - 65 + 10)
  else none

/-- `url.QueryUnescape`: `%XX` becomes the byte, `+` becomes a space; a `%` not followed
by two hexadecimal digits is an error. -/
def QueryUnescape : Bytes → Option Bytes
  | [] => some []
  | 37 :: a :: b :: s =>
    match unhex a, unhex b, QueryUnescape s with
    | some x, some y, some r => some ((x * 16 + y) :: r)
    | _, _, _ => none
  | 37 :: _ => none
  | 43 :: s => (QueryUnescape s).map (32 :: ·)
  | c :: s => (QueryUnescape s).map (c :: ·)

/-- Cut a byte string at each occurrence of `sep`. -/
def splitOn (sep : Nat) : Bytes → List Bytes
  | [] => [[]]
  | c :: s =>
    if c = sep then [] :: splitOn sep s
    else match splitOn sep s with
      | [] => [[c]]
      | w :: ws => (c :: w) :: ws

/-- One `key=value` piece of a query string, cut at its first `=` and unescaped; pieces
that are empty or do not unescape are dropped, as `url.ParseQuery` does. -/
def parsePair (piece : Bytes) : Option (Bytes × Bytes) :=
  if piece = [] then none
  else
    match QueryUnescape (piece.takeWhile (· ≠ 61)),
          QueryUnescape ((piece.dropWhile (· ≠ 61)).drop 1) with
    | some k, some v => some (k, v)
    | _, _ => none

/-- `url.ParseQuery`: the parameters of a query string, in order. -/
def ParseQuery (query : Bytes) : List (Bytes × Bytes) :=
  (splitOn 38 query).filterMap parsePair

/-! ## `unicode/utf8` -/

/-- `utf8.RuneError`, U+FFFD. -/
def RuneError : Nat := 0xFFFD

/-- A continuation byte, `0x80 ..= 0xBF`. -/
def isCont (b : Nat) : Bool := 0x80 ≤ b && b ≤ 0xBF

/-- `utf8.DecodeRune`: the first rune of `p` and its width in bytes. An invalid or
truncated encoding gives `(RuneError, 1)`, the empty input `(RuneError, 0)`. The second
byte is checked against the accept range of the first (`E0`: `A0..BF`, `ED`: `80..9F`,
`F0`: `90..BF`, `F4`: `80..8F`, otherwise `80..BF`). -/
def DecodeRune : Bytes → Nat × Nat
  | [] => (RuneError, 0)
  | b0 :: s =>
    if b0 < 0x80 then (b0, 1)
    else if b0 < 0xC2 then (RuneError, 1)
    else if b0 < 0xE0 then
      match s with
      | b1 :: _ =>
        if isCont b1 then (b0 % 32 * 64 + b1 % 64, 2) else (RuneError, 1)
      | [] => (RuneError, 1)
    else if b0 < 0xF0 then
      match s with
      | b1 :: b2 :: _ =>
        if (if b0 = 0xE0 then 0xA0 else 0x80) ≤ b1 ∧ b1 ≤ (if b0 = 0xED then 0x9F else 0xBF)
            ∧ isCont b2 then
          (b0 % 16 * 4096 + b1 % 64 * 64 + b2 % 64, 3)
        else (RuneError, 1)
      | _ => (RuneError, 1)
    else if b0 < 0xF5 then
      match s with
      | b1 :: b2 :: b3 :: _ =>
        if (if b0 = 0xF0 then 0x90 else 0x80) ≤ b1 ∧ b1 ≤ (if b0 = 0xF4 then 0x8F else 0xBF)
            ∧ isCont b2 ∧ isCont b3 then
          (b0 % 8 * 262144 + b1 % 64 * 4096 + b2 % 64 * 64 + b3 % 64, 4)
        else (RuneError, 1)
      | _ => (RuneError, 1)
    else (RuneError, 1)

/-- `utf8.EncodeRune` / `utf8.AppendRune`: surrogates and values above U+10FFFF are
written as U+FFFD. -/
def EncodeRune (r : Nat) : Bytes :=
  if r ≤ 0x7F then [r]
  else if r ≤ 0x7FF then [0xC0 + r / 64, 0x80 + r % 64]
  else if r > 0x10FFFF ∨ (0xD800 ≤ r ∧ r ≤ 0xDFFF) then [0xEF, 0xBF, 0xBD]
  else if r ≤ 0xFFFF then [0xE0 + r / 4096, 0x80 + r / 64 % 64, 0x80 + r % 64]
  else [0xF0 + r / 262144, 0x80 + r / 4096 % 64, 0x80 + r / 64 % 64, 0x80 + r % 64]

/-- `utf8.Valid` as a loop over `DecodeRune`: no position decodes to an encoding error. -/
def validUTF8 : Nat → Bytes → Bool
  | 0, s => s.isEmpty
  | _, [] => true
  | n + 1, b :: s =>
    if (DecodeRune (b :: s)).2 = 1 ∧ 0x80 ≤ b then false
    else validUTF8 n (s.drop ((DecodeRune (b :: s)).2 - 1))

/-- `utf8.Valid(s)`. -/
def Valid (s : Bytes) : Bool := validUTF8 s.length s

/-! ## What the source leaves to the Go toolchain

`main.go` does not say which Go release builds it. The embedding takes as a parameter
what the claims depend on and the releases do not agree on, or what lies outside the
embedding: the operations on `float64`, and two choices of the JSON encoder.
-/

/-- The operations on `float64`, the type of `Importance`, and the two release-dependent
choices of `encoding/json` when it writes a string.

* `zero`, `encodeFloat`, `ParseFloat`: the zero value, the text `Marshal` writes for a
  value (`none` for NaN and the infinities, which `Marshal` refuses with
  `UnsupportedValueError`), and `strconv.ParseFloat(lit, 64)` on a number literal (`none`
  when it reports an error). Floating-point arithmetic itself is not embedded.
* `escapeInvalid`: whether a byte that is not valid UTF-8 is written as the six-character
  escape of U+FFFD (`true`) or as the three bytes `EF BF BD` of that rune (`false`).
* `shortControlEscapes`: whether backspace and form feed are written as the
  two-character escapes `b` and `f` (`true`, Go 1.22 and later) or as `u0008` and `u000c`
  (`false`). -/
structure Toolchain where
  /-- The values of `float64`. -/
  F : Type
  /-- Equality of `float64` values is decidable. -/
  deq : DecidableEq F
  /-- The zero value. -/
  zero : F
  /-- The text written by `floatEncoder.encode`. -/
  encodeFloat : F → Option Bytes
  /-- The call `strconv.ParseFloat(lit, 64)`. -/
  ParseFloat : Bytes → Option F
  /-- Invalid UTF-8 is written as an escape. -/
  escapeInvalid : Bool
  /-- Backspace and form feed are written as two-character escapes. -/
  shortControlEscapes : Bool

instance (S : Toolchain) : DecidableEq S.F := S.deq

/-! ## `encoding/json`: writing -/

/-- The table `hex = "0123456789abcdef"`, indexed by a nibble. -/
def hex (n : Nat) : Nat := if n < 10 then 48 + n else 87 + n

/-- `htmlSafeSet[b]` for an ASCII byte: printable, and none of `"`, `\`, `<`, `>`, `&`. -/
def htmlSafe (b : Nat) : Bool :=
  0x20 ≤ b && b < 0x80 && b != 34 && b != 92 && b != 60 && b != 62 && b != 38

/-- What `encodeState.string` writes for an ASCII byte outside `htmlSafeSet`: a
two-character escape for `\\`, `"`, newline, carriage return and tab (and, when the
toolchain has `shortControlEscapes`, for backspace and form feed), otherwise the escape
`u00XX` (the other bytes below `0x20`, and `<`, `>`, `&`). -/
def escapeByte (S : Toolchain) (b : Nat) : Bytes :=
  if b = 92 ∨ b = 34 then [92, b]
  else if b = 10 then [92, 110]
  else if b = 13 then [92, 114]
  else if b = 9 then [92, 116]
  else if S.shortControlEscapes = true ∧ b = 8 then [92, 98]
  else if S.shortControlEscapes = true ∧ b = 12 then [92, 102]
  else [92, 117, 48, 48, hex (b / 16 % 16), hex (b % 16)]

/-- The loop of `encodeState.string(s, escapeHTML = true)`: the text between the
quotes. A byte that is not valid UTF-8 is written as U+FFFD, in the form the toolchain
chooses (`escapeInvalid`); U+2028 and U+2029 are written as the escapes `u2028` and
`u2029`; every other rune as its own bytes. -/
def quoteLoop (S : Toolchain) : Nat → Bytes → Bytes
  | 0, _ => []
  | _, [] => []
  | n + 1, b :: s =>
    if b < 0x80 then
      (if htmlSafe b then [b] else escapeByte S b) ++ quoteLoop S n s
    else if (DecodeRune (b :: s)).1 = RuneError ∧ (DecodeRune (b :: s)).2 = 1 then
      (if S.escapeInvalid then [92, 117, 102, 102, 102, 100] else [0xEF, 0xBF, 0xBD])
        ++ quoteLoop S n s
    else if (DecodeRune (b :: s)).1 = 0x2028 ∨ (DecodeRune (b :: s)).1 = 0x2029 then
      [92, 117, 50, 48, 50, hex ((DecodeRune (b :: s)).1 % 16)]
        ++ quoteLoop S n (s.drop ((DecodeRune (b :: s)).2 - 1))
    else
      (b :: s).take (DecodeRune (b :: s)).2
        ++ quoteLoop S n (s.drop ((DecodeRune (b :: s)).2 - 1))

/-- `encodeState.string`: a Go string as a JSON string literal. -/
def encodeString (S : Toolchain) (s : Bytes) : Bytes := 34 :: quoteLoop S s.length s ++ [34]

/-- The decimal digits of `n`, most significant first, in front of `acc`. -/
def digitsLoop : Nat → Nat → Bytes → Bytes
  | 0, n, acc => (48 + n % 10) :: acc
  | f + 1, n, acc =>
    if n < 10 then (48 + n) :: acc else digitsLoop f (n / 10) ((48 + n % 10) :: acc)

/-- `strconv.AppendUint(b, n, 10)`. -/
def formatNat (n : Nat) : Bytes := digitsLoop n n []

/-- `strconv.AppendInt(b, n, 10)`. -/
def formatInt (n : Int) : Bytes :=
  if n < 0 then 45 :: formatNat n.natAbs else formatNat n.natAbs

/-! ## `encoding/json`: reading

The scanner of `encoding/json` accepts exactly the JSON grammar; the decoder then walks
the accepted text. Both are embedded as one reader that returns the value read, with
string literals already unquoted, and the text after it.
-/

/-- The two ways a read fails: the text is not JSON (`SyntaxError`, `io.EOF`,
`io.ErrUnexpectedEOF`), or a JSON value does not fit the Go type (`UnmarshalTypeError`). -/
inductive JsonErr where
  | malformed
  | typeMismatch
  deriving DecidableEq

/-- A JSON value as the scanner delimits it. A number keeps its literal text, a string
is unquoted. -/
inductive JSON where
  | null
  | bool (b : Bool)
  | num (lit : Bytes)
  | str (s : Bytes)
  | arr (xs : List JSON)
  | obj (kvs : List (Bytes × JSON))

/-- `isSpace`: space, tab, carriage return, newline. -/
def isSpace (c : Nat) : Bool := c = 32 || c = 9 || c = 13 || c = 10

/-- Skip insignificant whitespace. -/
def skipSpace : Bytes → Bytes
  | [] => []
  | c :: s => if isSpace c then skipSpace s else c :: s

/-- A decimal digit. -/
def isDigit (c : Nat) : Bool := 48 ≤ c && c ≤ 57

/-- The longest run of digits at the front of the input, and what follows it. -/
def spanDigits : Bytes → Bytes × Bytes
  | [] => ([], [])
  | c :: s => if isDigit c then (c :: (spanDigits s).1, (spanDigits s).2) else ([], c :: s)

/-- The exponent of a number literal, if any: `e` or `E`, an optional sign, digits. -/
def scanExp (pre : Bytes) : Bytes → Option (Bytes × Bytes)
  | [] => some (pre, [])
  | c :: r =>
    if c = 101 ∨ c = 69 then
      match r with
      | 43 :: t =>
        if (spanDigits t).1 = [] then none
        else some (pre ++ c :: 43 :: (spanDigits t).1, (spanDigits t).2)
      | 45 :: t =>
        if (spanDigits t).1 = [] then none
        else some (pre ++ c :: 45 :: (spanDigits t).1, (spanDigits t).2)
      | t =>
        if (spanDigits t).1 = [] then none
        else some (pre ++ c :: (spanDigits t).1, (spanDigits t).2)
    else some (pre, c :: r)

/-- The fraction of a number literal, if any: `.` and at least one digit. -/
def scanFrac (pre : Bytes) : Bytes → Option (Bytes × Bytes)
  | 46 :: r =>
    if (spanDigits r).1 = [] then none
    else scanExp (pre ++ 46 :: (spanDigits r).1) (spanDigits r).2
  | r => scanExp pre r

/-- The integer part of a number literal after the optional sign: `0`, or a nonzero
digit followed by digits. -/
def scanInt (pre : Bytes) : Bytes → Option (Bytes × Bytes)
  | [] => none
  | c :: r =>
    if c = 48 then scanFrac (pre ++ [48]) r
    else if 49 ≤ c ∧ c ≤ 57 then scanFrac (pre ++ c :: (spanDigits r).1) (spanDigits r).2
    else none

/-- A number literal at the front of the input: its text and what follows it. -/
def scanNumber : Bytes → Option (Bytes × Bytes)
  | 45 :: r => scanInt [45] r
  | r => scanInt [] r

/-- `getu4`: the value of the escape `\uXXXX` at the front of the text, if there is one. -/
def getu4 : Bytes → Option Nat
  | 92 :: 117 :: a :: b :: c :: d :: _ =>
    match unhex a, unhex b, unhex c, unhex d with
    | some x, some y, some z, some w => some (((x * 16 + y) * 16 + z) * 16 + w)
    | _, _, _, _ => none
  | _ => none

/-- The byte a one-letter escape stands for: `\"`, `\\`, `\/`, `\b`, `\f`, `\n`, `\r`,
`\t`. -/
def unescapeChar (c : Nat) : Option Nat :=
  if c = 34 ∨ c = 92 ∨ c = 47 then some c
  else if c = 98 then some 8
  else if c = 102 then some 12
  else if c = 110 then some 10
  else if c = 114 then some 13
  else if c = 116 then some 9
  else none

/-- Put unquoted bytes in front of the rest of a string being read. -/
def consRead (pre : Bytes) : Option (Bytes × Bytes) → Option (Bytes × Bytes)
  | none => none
  | some (t, rest) => some (pre ++ t, rest)

/-- A string literal after its opening quote: the unquoted bytes (`unquoteBytes`) and the
text after the closing quote. Control characters and unknown escapes are rejected, as by
the scanner. A `\u` escape of a surrogate pairs with a following low surrogate escape
or becomes U+FFFD; raw bytes at or above `0x80` are decoded and encoded again, which
turns invalid UTF-8 into U+FFFD. -/
def readString : Nat → Bytes → Option (Bytes × Bytes)
  | 0, _ => none
  | _, [] => none
  | n + 1, c :: s =>
    if c = 34 then some ([], s)
    else if c = 92 then
      match s with
      | [] => none
      | e :: s1 =>
        if e = 117 then
          match getu4 (92 :: 117 :: s1) with
          | none => none
          | some rr =>
            if 0xD800 ≤ rr ∧ rr < 0xE000 then
              match getu4 (s1.drop 4) with
              | some rr1 =>
                if rr < 0xDC00 ∧ 0xDC00 ≤ rr1 ∧ rr1 < 0xE000 then
                  consRead (EncodeRune ((rr - 0xD800) * 1024 + (rr1 - 0xDC00) + 0x10000))
                    (readString n (s1.drop 10))
                else consRead (EncodeRune RuneError) (readString n (s1.drop 4))
              | none => consRead (EncodeRune RuneError) (readString n (s1.drop 4))
            else consRead (EncodeRune rr) (readString n (s1.drop 4))
        else
          match unescapeChar e with
          | some b => consRead [b] (readString n s1)
          | none => none
    else if c < 0x20 then none
    else if c < 0x80 then consRead [c] (readString n s)
    else
      consRead (EncodeRune (DecodeRune (c :: s)).1)
        (readString n (s.drop ((DecodeRune (c :: s)).2 - 1)))

/-- `maxNestingDepth`: arrays and objects nest at most this deep. -/
def maxNestingDepth : Nat := 10000

mutual
/-- One JSON value at the front of the input (no leading whitespace), inside `d` open
arrays and objects: the value and the text after it. -/
def readValue : Nat → Nat → Bytes → Option (JSON × Bytes)
  | 0, _, _ => none
  | _ + 1, _, [] => none
  | f + 1, d, c :: s =>
    if c = 123 then                                   -- {
      if d < maxNestingDepth then
        match skipSpace s with
        | [] => none
        | c1 :: r =>
          if c1 = 125 then some (JSON.obj [], r)
          else (readMembers f (d + 1) (c1 :: r)).map fun p => (JSON.obj p.1, p.2)
      else none
    else if c = 91 then                               -- [
      if d < maxNestingDepth then
        match skipSpace s with
        | [] => none
        | c1 :: r =>
          if c1 = 93 then some (JSON.arr [], r)
          else (readElems f (d + 1) (c1 :: r)).map fun p => (JSON.arr p.1, p.2)
      else none
    else if c = 34 then                               -- "
      (readString (s.length + 1) s).map fun p => (JSON.str p.1, p.2)
    else if c = 116 then                              -- true
      match s with
      | 114 :: 117 :: 101 :: r => some (JSON.bool true, r)
      | _ => none
    else if c = 102 then                              -- false
      match s with
      | 97 :: 108 :: 115 :: 101 :: r => some (JSON.bool false, r)
      | _ => none
    else if c = 110 then                              -- null
      match s with
      | 117 :: 108 :: 108 :: r => some (JSON.null, r)
      | _ => none
    else (scanNumber (c :: s)).map fun p => (JSON.num p.1, p.2)
/-- The elements of an array from its first element on, up to the closing bracket. -/
def readElems : Nat → Nat → Bytes → Option (List JSON × Bytes)
  | 0, _, _ => none
  | f + 1, d, bs =>
    match readValue f d bs with
    | none => none
    | some (v, r) =>
      match skipSpace r with
      | [] => none
      | c :: r1 =>
        if c = 44 then (readElems f d (skipSpace r1)).map fun p => (v :: p.1, p.2)
        else if c = 93 then some ([v], r1)
        else none
/-- The members of an object from its first key on, up to the closing brace. -/
def readMembers : Nat → Nat → Bytes → Option (List (Bytes × JSON) × Bytes)
  | 0, _, _ => none
  | _ + 1, _, [] => none
  | f + 1, d, q :: s =>
    if q = 34 then
      match readString (s.length + 1) s with
      | none => none
      | some (k, r) =>
        match skipSpace r with
        | [] => none
        | c :: r1 =>
          if c = 58 then
            match readValue f d (skipSpace r1) with
            | none => none
            | some (v, r2) =>
              match skipSpace r2 with
              | [] => none
              | c2 :: r3 =>
                if c2 = 44 then
                  (readMembers f d (skipSpace r3)).map fun p => ((k, v) :: p.1, p.2)
                else if c2 = 125 then some ([(k, v)], r3)
                else none
          else none
    else none
end

/-- The first JSON value of a stream, as `Decoder.Decode` delimits it: leading
whitespace is skipped and whatever follows the value is left unread. The fuel given to
the reader is enough for every input (`readFirst_complete`). -/
def readFirst (body : Bytes) : Option JSON :=
  (readValue (2 * body.length + 2) 0 (skipSpace body)).map (·.1)

/-- The JSON value of a complete text, as `Unmarshal` checks it (`checkValid`): one
value with nothing but whitespace around it. The fuel given to the reader is enough for
every input (`readWhole_complete`). -/
def readWhole (b : Bytes) : Option JSON :=
  match readValue (2 * b.length + 2) 0 (skipSpace b) with
  | some (v, r) => if skipSpace r = [] then some v else none
  | none => none

/-! ## The Go types of `main.go` -/

/-- The struct `NominatimResponse`. An `int` is 64 bits wide; a slice is `none` when it is
`nil`. -/
structure NominatimResponse (S : Toolchain) where
  PlaceID : Int
  Licence : Bytes
  OsmType : Bytes
  OsmID : Int
  Boundingbox : Option (List Bytes)
  Lat : Bytes
  Lon : Bytes
  DisplayName : Bytes
  Class : Bytes
  Type_ : Bytes
  Importance : S.F
  Icon : Bytes
  deriving DecidableEq

/-- The zero value of `NominatimResponse`. -/
def NominatimResponse.zero (S : Toolchain) : NominatimResponse S :=
  ⟨0, [], [], 0, none, [], [], [], [], [], S.zero, []⟩

/-- A value of type `[]NominatimResponse`; `none` is the `nil` slice. -/
abbrev Results (S : Toolchain) := Option (List (NominatimResponse S))

/-- The fields of `NominatimResponse`, in declaration order. -/
inductive Field where
  | PlaceID | Licence | OsmType | OsmID | Boundingbox | Lat | Lon | DisplayName
  | Class | Type_ | Importance | Icon
  deriving DecidableEq

/-- The `json:"..."` tag of each field. -/
def Field.tag : Field → Bytes
  | .PlaceID => ascii "place_id"
  | .Licence => ascii "licence"
  | .OsmType => ascii "osm_type"
  | .OsmID => ascii "osm_id"
  | .Boundingbox => ascii "boundingbox"
  | .Lat => ascii "lat"
  | .Lon => ascii "lon"
  | .DisplayName => ascii "display_name"
  | .Class => ascii "class"
  | .Type_ => ascii "type"
  | .Importance => ascii "importance"
  | .Icon => ascii "icon"

/-- All fields, in declaration order. -/
def Field.all : List Field :=
  [.PlaceID, .Licence, .OsmType, .OsmID, .Boundingbox, .Lat, .Lon, .DisplayName,
   .Class, .Type_, .Importance, .Icon]

/-! ## `encoding/json`: `Marshal` at `[]NominatimResponse` -/

/-- A `[]string`: `null` when nil, otherwise the elements between brackets. -/
def encodeStrings (S : Toolchain) : Option (List Bytes) → Bytes
  | none => ascii "null"
  | some xs => 91 :: (List.intercalate [44] (xs.map (encodeString S))) ++ [93]

/-- One struct: every field in declaration order under its tag (no field is
`omitempty`). `none` when `Importance` cannot be written. -/
def encodeRecord (S : Toolchain) (r : NominatimResponse S) : Option Bytes :=
  match S.encodeFloat r.Importance with
  | none => none
  | some imp =>
    some (ascii "\x7b\"place_id\":" ++ formatInt r.PlaceID
      ++ ascii ",\"licence\":" ++ encodeString S r.Licence
      ++ ascii ",\"osm_type\":" ++ encodeString S r.OsmType
      ++ ascii ",\"osm_id\":" ++ formatInt r.OsmID
      ++ ascii ",\"boundingbox\":" ++ encodeStrings S r.Boundingbox
      ++ ascii ",\"lat\":" ++ encodeString S r.Lat
      ++ ascii ",\"lon\":" ++ encodeString S r.Lon
      ++ ascii ",\"display_name\":" ++ encodeString S r.DisplayName
      ++ ascii ",\"class\":" ++ encodeString S r.Class
      ++ ascii ",\"type\":" ++ encodeString S r.Type_
      ++ ascii ",\"importance\":" ++ imp
      ++ ascii ",\"icon\":" ++ encodeString S r.Icon
      ++ ascii "\x7d")

/-- The encodings of all records, or `none` as soon as one cannot be written. -/
def encodeRecords (S : Toolchain) : List (NominatimResponse S) → Option (List Bytes)
  | [] => some []
  | r :: rs =>
    match encodeRecord S r, encodeRecords S rs with
    | some b, some bs => some (b :: bs)
    | _, _ => none

/-- `json.Marshal(data)` for `data []NominatimResponse`: `null` for the nil slice,
otherwise the records between brackets; `none` stands for the error
`UnsupportedValueError`. -/
def Marshal (S : Toolchain) : Results S → Option Bytes
  | none => some (ascii "null")
  | some rs =>
    match encodeRecords S rs with
    | none => none
    | some bs => some (91 :: List.intercalate [44] bs ++ [93])

/-! ## `encoding/json`: storing a value read into `[]NominatimResponse` -/

/-- The value of a run of decimal digits; `none` when the text is empty or has another
character. -/
def parseDigits (ds : Bytes) : Option Nat :=
  if ds ≠ [] ∧ ds.all isDigit then some (ds.foldl (fun acc c => acc * 10 + (c - 48)) 0)
  else none

/-- `strconv.ParseInt(lit, 10, 64)` on a JSON number literal: an optional `-` and
digits, within the range of `int64`; `none` when it reports an error (a fraction, an
exponent, a value out of range). -/
def ParseInt : Bytes → Option Int
  | 45 :: ds =>
    match parseDigits ds with
    | some n => if n ≤ 2 ^ 63 then some (-(n : Int)) else none
    | none => none
  | ds =>
    match parseDigits ds with
    | some n => if n < 2 ^ 63 then some (n : Int) else none
    | none => none

/-- Store into an `int` holding `cur`: a number literal that `ParseInt` accepts is set,
`null` leaves the value alone, anything else is an `UnmarshalTypeError`. -/
def storeInt (cur : Int) : JSON → Except JsonErr Int
  | .num lit =>
    match ParseInt lit with
    | some n => .ok n
    | none => .error .typeMismatch
  | .null => .ok cur
  | _ => .error .typeMismatch

/-- Store into a `string` holding `cur`. -/
def storeString (cur : Bytes) : JSON → Except JsonErr Bytes
  | .str s => .ok s
  | .null => .ok cur
  | _ => .error .typeMismatch

/-- Store into a `float64` holding `cur`. -/
def storeFloat (S : Toolchain) (cur : S.F) : JSON → Except JsonErr S.F
  | .num lit =>
    match S.ParseFloat lit with
    | some f => .ok f
    | none => .error .typeMismatch
  | .null => .ok cur
  | _ => .error .typeMismatch

/-- The loop of `decodeState.array` on a `[]string` with backing array `array` (its
length is the capacity) and length `len`, at element index `i`: grow the backing array
when `i` reaches the capacity (new capacity `cap + cap/2`, at least 4; the elements
below `len` are copied, the others are zero), extend the length to `i + 1`, store into
element `i`. Returns the backing array, the length and the number of elements read. -/
def storeStringElems : List JSON → Nat → List Bytes → Nat →
    Except JsonErr (List Bytes × Nat × Nat)
  | [], i, array, len => .ok (array, len, i)
  | e :: es, i, array, len =>
    let array1 :=
      if array.length ≤ i then
        array.take len
          ++ List.replicate (max 4 (array.length + array.length / 2) - len) ([] : Bytes)
      else array
    let len1 := if len ≤ i then i + 1 else len
    match storeString (array1.getD i []) e with
    | .error err => .error err
    | .ok s => storeStringElems es (i + 1) (array1.set i s) len1

/-- Store into the field `Boundingbox`, a `[]string` with value `cur` and backing array
`array`: `null` sets nil; an array is stored element by element, then the length is cut
to the number of elements read, and an empty array gives a fresh empty slice. Returns
the new value and backing array. -/
def storeStrings (cur : Option (List Bytes)) (array : List Bytes) :
    JSON → Except JsonErr (Option (List Bytes) × List Bytes)
  | .null => .ok (none, [])
  | .arr es =>
    match storeStringElems es 0 array (cur.getD []).length with
    | .error err => .error err
    | .ok (array1, len1, i) =>
      if i = 0 then .ok (some [], [])
      else .ok (some (array1.take (min i len1)), array1)
  | _ => .error .typeMismatch

/-- The test `'A' <= c&^0x20 && c&^0x20 <= 'Z'`: an ASCII letter. -/
def isLetter (c : Nat) : Bool := (65 ≤ c && c ≤ 90) || (97 ≤ c && c ≤ 122)

/-- The upper-case form of an ASCII letter (`c & caseMask`). -/
def upper (c : Nat) : Nat := if 97 ≤ c ∧ c ≤ 122 then c - 32 else c

/-- `equalFoldRight(name, key)` for an ASCII field name: bytes agree up to the case of
ASCII letters; in addition U+017F in the key matches `s` and U+212A matches `k`. For a
name without `s` or `k` this is the byte comparison of `asciiEqualFold` and
`simpleLetterEqualFold`, which the decoder selects for such names. -/
def equalFold : Nat → Bytes → Bytes → Bool
  | _, [], key => key.isEmpty
  | 0, _ :: _, _ => false
  | _ + 1, _ :: _, [] => false
  | n + 1, sb :: name, tb :: key =>
    if tb < 0x80 then
      (sb = tb || (isLetter sb && isLetter tb && upper sb = upper tb)) && equalFold n name key
    else if (sb = 115 ∨ sb = 83) ∧ (DecodeRune (tb :: key)).1 = 0x17F then
      equalFold n name (key.drop ((DecodeRune (tb :: key)).2 - 1))
    else if (sb = 107 ∨ sb = 75) ∧ (DecodeRune (tb :: key)).1 = 0x212A then
      equalFold n name (key.drop ((DecodeRune (tb :: key)).2 - 1))
    else false

/-- The field an object key selects: the field whose tag is the key, otherwise the first
field whose tag equals the key under `equalFold`; `none` for an unknown key. -/
def fieldOf (key : Bytes) : Option Field :=
  match Field.all.find? (fun f => f.tag = key) with
  | some f => some f
  | none => Field.all.find? (fun f => equalFold f.tag.length f.tag key)

/-- Store the value of one object member into the field it selects. The record is
threaded together with the backing array of its `Boundingbox` slice. -/
def storeField (S : Toolchain) (st : NominatimResponse S × List Bytes) (f : Field)
    (v : JSON) : Except JsonErr (NominatimResponse S × List Bytes) :=
  match f with
  | .PlaceID => (storeInt st.1.PlaceID v).map fun x => ({ st.1 with PlaceID := x }, st.2)
  | .Licence => (storeString st.1.Licence v).map fun x => ({ st.1 with Licence := x }, st.2)
  | .OsmType => (storeString st.1.OsmType v).map fun x => ({ st.1 with OsmType := x }, st.2)
  | .OsmID => (storeInt st.1.OsmID v).map fun x => ({ st.1 with OsmID := x }, st.2)
  | .Boundingbox =>
    (storeStrings st.1.Boundingbox st.2 v).map fun x => ({ st.1 with Boundingbox := x.1 }, x.2)
  | .Lat => (storeString st.1.Lat v).map fun x => ({ st.1 with Lat := x }, st.2)
  | .Lon => (storeString st.1.Lon v).map fun x => ({ st.1 with Lon := x }, st.2)
  | .DisplayName =>
    (storeString st.1.DisplayName v).map fun x => ({ st.1 with DisplayName := x }, st.2)
  | .Class => (storeString st.1.Class v).map fun x => ({ st.1 with Class := x }, st.2)
  | .Type_ => (storeString st.1.Type_ v).map fun x => ({ st.1 with Type_ := x }, st.2)
  | .Importance =>
    (storeFloat S st.1.Importance v).map fun x => ({ st.1 with Importance := x }, st.2)
  | .Icon => (storeString st.1.Icon v).map fun x => ({ st.1 with Icon := x }, st.2)

/-- The loop of `decodeState.object` on a struct: members are stored in order, a member
with an unknown key is skipped. -/
def storeMembers (S : Toolchain) : List (Bytes × JSON) → NominatimResponse S × List Bytes →
    Except JsonErr (NominatimResponse S × List Bytes)
  | [], st => .ok st
  | (k, v) :: kvs, st =>
    match fieldOf k with
    | none => storeMembers S kvs st
    | some f =>
      match storeField S st f v with
      | .error err => .error err
      | .ok st1 => storeMembers S kvs st1

/-- Store into a `NominatimResponse` holding `cur`: an object is stored member by
member, `null` leaves the struct alone, anything else is an `UnmarshalTypeError`. -/
def storeRecord (S : Toolchain) (cur : NominatimResponse S) :
    JSON → Except JsonErr (NominatimResponse S)
  | .obj kvs => (storeMembers S kvs (cur, [])).map (·.1)
  | .null => .ok cur
  | _ => .error .typeMismatch

/-- The elements of the top-level array, each stored into a fresh zero element. -/
def storeRecords (S : Toolchain) : List JSON → Except JsonErr (List (NominatimResponse S))
  | [] => .ok []
  | e :: es =>
    match storeRecord S (NominatimResponse.zero S) e with
    | .error err => .error err
    | .ok r =>
      match storeRecords S es with
      | .error err => .error err
      | .ok rs => .ok (r :: rs)

/-- Store into the variable `data []NominatimResponse`, which holds the empty slice
`make([]NominatimResponse, 0)`: an array gives its elements (an empty, non-nil slice
when there are none), `null` sets the slice to nil, anything else is an
`UnmarshalTypeError`. -/
def storeResults (S : Toolchain) : JSON → Except JsonErr (Results S)
  | .arr es => (storeRecords S es).map some
  | .null => .ok none
  | _ => .error .typeMismatch

/-- The call `json.NewDecoder(resp.Body).Decode(&data)`: the first JSON value of the body
is read and stored; the rest of the body is not looked at. -/
def Decode (S : Toolchain) (body : Bytes) : Except JsonErr (Results S) :=
  match readFirst body with
  | none => .error .malformed
  | some v => storeResults S v

/-- The call `json.Unmarshal(b, &data)`: the whole text must be one JSON value, which is
stored. -/
def Unmarshal (S : Toolchain) (b : Bytes) : Except JsonErr (Results S) :=
  match readWhole b with
  | none => .error .malformed
  | some v => storeResults S v

/-! ## The Redis client -/

/-- Go `error` values that reach `getData`. -/
inductive GoError where
  /-- The value `redis.Nil`: the key does not exist. -/
  | Nil
  /-- Any other error of the Redis client or of `http.Get`, identified by a number. -/
  | io (code : Nat)
  /-- An error of `Decode` or `Unmarshal`. -/
  | json (e : JsonErr)
  /-- The error `UnsupportedValueError` of `Marshal`. -/
  | unsupportedValue
  deriving DecidableEq

/-- `time.Second`, in nanoseconds (the unit of `time.Duration`). -/
def Second : Nat := 1000000000

/-- A key of the store: its value and the instant, in nanoseconds, at which it expires. -/
structure Entry where
  value : Bytes
  expiry : Nat
  deriving DecidableEq

/-- The contents of the Redis server: at most one entry per key. -/
abbrev Store := List (Bytes × Entry)

/-- The entry of `key` that is alive at the instant `now`. -/
def Store.lookup (st : Store) (key : Bytes) (now : Nat) : Option Bytes :=
  match st.find? (fun p => p.1 = key) with
  | some (_, e) => if now < e.expiry then some e.value else none
  | none => none

/-- `SET key value EX ttl` at the instant `now`: replaces the entry of `key`. -/
def Store.set (st : Store) (key value : Bytes) (ttl now : Nat) : Store :=
  (key, ⟨value, now + ttl⟩) :: st.filter (fun p => p.1 ≠ key)

/-- What surrounds one call of `getData`: the clock at the two Redis commands, whether
the Redis client fails at either, and what `http.Get` returns for an address (the body
of the response, or an error). -/
structure Env where
  getTime : Nat
  getFault : Option GoError
  httpGet : Bytes → Except GoError Bytes
  setTime : Nat
  setFault : Option GoError

/-- The outward calls `getData` makes, in order. -/
inductive Call where
  | cacheGet (key : Bytes)
  | httpGet (addr : Bytes)
  | cacheSet (key value : Bytes) (ttl : Nat)
  deriving DecidableEq

/-- `a.cache.Get(ctx, q).Result()`: a client error, `redis.Nil` for a key that is absent
or expired, otherwise the value. -/
def cacheGet (env : Env) (st : Store) (q : Bytes) : Except GoError Bytes :=
  match env.getFault with
  | some e => .error e
  | none =>
    match st.lookup q env.getTime with
    | some v => .ok v
    | none => .error .Nil

/-- What `getData` returns, `([]NominatimResponse, bool, error)`; `err = none` is the nil
error. -/
structure Reply (S : Toolchain) where
  data : Results S
  cacheHit : Bool
  err : Option GoError
  deriving DecidableEq

/-- The outcome of one call: the reply, the outward calls made, and the store after it. -/
structure Outcome (S : Toolchain) where
  reply : Reply S
  calls : List Call
  store : Store

/-- The method `(*API).getData(ctx, q)`. -/
def getData (S : Toolchain) (env : Env) (st : Store) (q : Bytes) : Outcome S :=
  match cacheGet env st q with
  | .error .Nil =>
    -- we want call external data source
    match env.httpGet (address q) with
    | .error err => ⟨⟨none, false, some err⟩, [.cacheGet q, .httpGet (address q)], st⟩
    | .ok body =>
      match Decode S body with
      | .error err =>
        ⟨⟨none, false, some (.json err)⟩, [.cacheGet q, .httpGet (address q)], st⟩
      | .ok data =>
        match Marshal S data with
        | none =>
          ⟨⟨none, false, some .unsupportedValue⟩, [.cacheGet q, .httpGet (address q)], st⟩
        | some b =>
          -- set the value
          match env.setFault with
          | some err =>
            ⟨⟨none, false, some err⟩,
              [.cacheGet q, .httpGet (address q), .cacheSet q b (Second * 15)], st⟩
          | none =>
            -- return the response
            ⟨⟨data, false, none⟩,
              [.cacheGet q, .httpGet (address q), .cacheSet q b (Second * 15)],
              st.set q b (Second * 15) env.setTime⟩
  | .error err => ⟨⟨none, false, some err⟩, [.cacheGet q], st⟩
  | .ok value =>
    -- cache hit
    match Unmarshal S value with
    | .error err => ⟨⟨none, false, some (.json err)⟩, [.cacheGet q], st⟩
    | .ok data => ⟨⟨data, true, none⟩, [.cacheGet q], st⟩

/-- A `Toolchain` for the fragment of `float64` made of the integers of at most 15 digits:
such a value is written in plain decimal, as Go writes it, and read back exactly. A
literal outside the fragment (a fraction, an exponent, more digits) is reported as an
error by this instance although `strconv.ParseFloat` accepts it, and negative zero is not
told apart from zero; the concrete inputs evaluated below stay inside the fragment. The
two encoder choices are set to those of Go 1.21; no string evaluated below is touched by
them. -/
def intFloats : Toolchain where
  F := Int
  deq := inferInstance
  zero := 0
  encodeFloat n := if n.natAbs < 1000000000000000 then some (formatInt n) else none
  ParseFloat lit :=
    match ParseInt lit with
    | some n => if n.natAbs < 1000000000000000 then some n else none
    | none => none
  escapeInvalid := true
  shortControlEscapes := false

/-! ## The contract of `float64` formatting -/

/-- The bytes that can follow a value inside an array or object: `,`, `]` and `}`. -/
def isDelim (c : Nat) : Prop := c = 44 ∨ c = 93 ∨ c = 125

/-- What `strconv` guarantees for `float64` and `encoding/json` relies on: zero is written
`0`; a value returned by `ParseFloat` is finite and can be written; what is written is a
JSON number literal (followed by `,`, `]` or `}` it is read back as exactly that text);
and reading what was written gives the value back (shortest round-trip formatting). -/
structure Toolchain.Lawful (S : Toolchain) : Prop where
  encode_zero : S.encodeFloat S.zero = some [48]
  parse_finite : ∀ lit f, S.ParseFloat lit = some f → ∃ b, S.encodeFloat f = some b
  encode_literal : ∀ f b c rest, S.encodeFloat f = some b → isDelim c →
    scanNumber (b ++ c :: rest) = some (b, c :: rest)
  parse_encode : ∀ f b, S.encodeFloat f = some b → S.ParseFloat b = some f

/-- Every record of a result can be written by `Marshal`. -/
def Encodable (S : Toolchain) (d : Results S) : Prop :=
  ∀ rs, d = some rs → ∀ r ∈ rs, ∃ b, S.encodeFloat r.Importance = some b

/-- The record of the specification's Boston scenario, with importance 1. -/
def boston : NominatimResponse intFloats :=
  { PlaceID := 123, Licence := ascii "ODbL", OsmType := ascii "relation", OsmID := 456,
    Boundingbox := some [ascii "42.2", ascii "42.4", ascii "-71.2", ascii "-71.0"],
    Lat := ascii "42.3601", Lon := ascii "-71.0589", DisplayName := ascii "Boston, MA, USA",
    Class := ascii "boundary", Type_ := ascii "administrative", Importance := (1 : Int),
    Icon := [] }

/-- An upstream response body holding the Boston record, as Nominatim lays it out. -/
def bostonBody : Bytes :=
  ascii ("[\x7b\"place_id\":123,\"licence\":\"ODbL\",\"osm_type\":\"relation\",\"osm_id\":456,"
    ++ "\"boundingbox\":[\"42.2\",\"42.4\",\"-71.2\",\"-71.0\"],\"lat\":\"42.3601\","
    ++ "\"lon\":\"-71.0589\",\"display_name\":\"Boston, MA, USA\",\"class\":\"boundary\","
    ++ "\"type\":\"administrative\",\"importance\":1,\"icon\":\"\"\x7d]")

/-- A call during which Redis works and upstream answers every request with `body`; the
get happens at instant `t`, the set one millisecond later. -/
def envWith (body : Bytes) (t : Nat) : Env :=
  ⟨t, none, fun _ => .ok body, t + 1000000, none⟩

/-- One call of `getData` in a history: its environment, the store it found, its query. -/
structure Execution where
  env : Env
  before : Store
  q : Bytes

/-- The histories of a store that starts empty: `Run S hist st` says that the calls of
`getData` recorded in `hist` (latest first), interleaved with the store dropping keys
(expiry or eviction), lead from the empty store to `st`. -/
inductive Run (S : Toolchain) : List Execution → Store → Prop where
  | empty : Run S [] []
  | call {hist : List Execution} {st : Store} (env : Env) (q : Bytes) :
      Run S hist st → Run S (⟨env, st, q⟩ :: hist) (getData S env st q).store
  | evict {hist : List Execution} {st : Store} (key : Bytes) :
      Run S hist st → Run S hist (st.filter (fun p => p.1 ≠ key))

/-! ## Reading back what `Marshal` wrote: notions used in the proofs -/

/-- The text starts with a byte that begins a value: not whitespace, not a closing
bracket or brace. -/
def StartsValue (txt : Bytes) : Prop :=
  ∃ h t, txt = h :: t ∧ isSpace h = false ∧ h ≠ 93 ∧ h ≠ 125

/-- The text `txt`, followed by `,`, `]` or `}`, is read as the value `v` and nothing
more, with fuel at least its length and room for `h` further levels of nesting. -/
def Reads (h : Nat) (txt : Bytes) (v : JSON) : Prop :=
  StartsValue txt ∧ ∀ f d c rest, isDelim c → txt.length ≤ f → d + h ≤ maxNestingDepth →
    readValue f d (txt ++ c :: rest) = some (v, c :: rest)

/-- The text `txt` is read as the value `v` whatever follows it. -/
def ReadsAny (h : Nat) (txt : Bytes) (v : JSON) : Prop :=
  StartsValue txt ∧ ∀ f d rest, txt.length ≤ f → d + h ≤ maxNestingDepth →
    readValue f d (txt ++ rest) = some (v, rest)

/-- Texts joined by commas. -/
def joinComma : List Bytes → Bytes
  | [] => []
  | [x] => x
  | x :: y :: l => x ++ 44 :: joinComma (y :: l)

/-- The JSON value `Marshal` writes for a `[]string`. -/
def stringsJSON : Option (List Bytes) → JSON
  | none => JSON.null
  | some xs => JSON.arr (xs.map JSON.str)

/-- The members `Marshal` writes for a record: tag, text of the value, value; `imp` is the
text of `Importance`. -/
def recordMembers (S : Toolchain) (r : NominatimResponse S) (imp : Bytes) :
    List (Bytes × Bytes × JSON) :=
  [(Field.PlaceID.tag, formatInt r.PlaceID, JSON.num (formatInt r.PlaceID)),
   (Field.Licence.tag, encodeString S r.Licence, JSON.str r.Licence),
   (Field.OsmType.tag, encodeString S r.OsmType, JSON.str r.OsmType),
   (Field.OsmID.tag, formatInt r.OsmID, JSON.num (formatInt r.OsmID)),
   (Field.Boundingbox.tag, encodeStrings S r.Boundingbox, stringsJSON r.Boundingbox),
   (Field.Lat.tag, encodeString S r.Lat, JSON.str r.Lat),
   (Field.Lon.tag, encodeString S r.Lon, JSON.str r.Lon),
   (Field.DisplayName.tag, encodeString S r.DisplayName, JSON.str r.DisplayName),
   (Field.Class.tag, encodeString S r.Class, JSON.str r.Class),
   (Field.Type_.tag, encodeString S r.Type_, JSON.str r.Type_),
   (Field.Importance.tag, imp, JSON.num imp),
   (Field.Icon.tag, encodeString S r.Icon, JSON.str r.Icon)]

/-- The JSON object `Marshal` writes for a record. -/
def recordJSON (S : Toolchain) (r : NominatimResponse S) (imp : Bytes) : JSON :=
  JSON.obj ((recordMembers S r imp).map fun m => (m.1, m.2.2))

/-- An `int` value: within the range of 64 bits. -/
def inInt64 (n : Int) : Bool := decide (-(2 ^ 63 : Int) ≤ n ∧ n < 2 ^ 63)

/-- A record whose strings are valid UTF-8 (and whose `int` fields are 64-bit values). -/
def NominatimResponse.wellFormed {S : Toolchain} (r : NominatimResponse S) : Bool :=
  inInt64 r.PlaceID && inInt64 r.OsmID && Valid r.Licence && Valid r.OsmType
    && Valid r.Lat && Valid r.Lon && Valid r.DisplayName && Valid r.Class && Valid r.Type_
    && Valid r.Icon
    && (match r.Boundingbox with
        | none => true
        | some xs => xs.all Valid)

/-- A result all of whose records are well formed. -/
def WellFormed {S : Toolchain} (d : Results S) : Prop :=
  ∀ rs, d = some rs → ∀ r ∈ rs, r.wellFormed = true

/-- Every string inside the value is valid UTF-8. -/
inductive JSON.Clean : JSON → Prop where
  | null : JSON.Clean JSON.null
  | bool (b : Bool) : JSON.Clean (JSON.bool b)
  | num (lit : Bytes) : JSON.Clean (JSON.num lit)
  | str (s : Bytes) : Valid s = true → JSON.Clean (JSON.str s)
  | arr (xs : List JSON) : (∀ v ∈ xs, JSON.Clean v) → JSON.Clean (JSON.arr xs)
  | obj (kvs : List (Bytes × JSON)) : (∀ p ∈ kvs, JSON.Clean p.2) → JSON.Clean (JSON.obj kvs)

/-- The text of one object member: the key as a string literal, a colon, the value. -/
def memberText (S : Toolchain) (m : Bytes × Bytes × JSON) : Bytes :=
  encodeString S m.1 ++ 58 :: m.2.1

/-! ## Theorems -/

section Encodability

variable {S : Toolchain}

theorem map_eq_ok {ε α β : Type} {f : α → β} {x : Except ε α} {y : β}
    (h : Except.map f x = .ok y) : ∃ a, x = .ok a ∧ f a = y := by
  cases x with
  | error e => simp [Except.map] at h
  | ok a => simp only [Except.map, Except.ok.injEq] at h; exact ⟨a, rfl, h⟩

theorem storeFloat_encodable (hS : S.Lawful) {cur x : S.F} {v : JSON}
    (h : storeFloat S cur v = .ok x) (hc : ∃ b, S.encodeFloat cur = some b) :
    ∃ b, S.encodeFloat x = some b := by
  cases v <;> simp only [storeFloat] at h
  case null => cases h; exact hc
  case num lit =>
    cases hp : S.ParseFloat lit with
    | none => simp [hp] at h
    | some y =>
      simp only [hp, Except.ok.injEq] at h
      rw [← h]
      exact hS.parse_finite lit y hp
  all_goals cases h

theorem storeField_encodable (hS : S.Lawful) {st st1 : NominatimResponse S × List Bytes}
    {f : Field} {v : JSON} (h : storeField S st f v = .ok st1)
    (hst : ∃ b, S.encodeFloat st.1.Importance = some b) :
    ∃ b, S.encodeFloat st1.1.Importance = some b := by
  cases f <;> simp only [storeField] at h <;> obtain ⟨a, ha, rfl⟩ := map_eq_ok h
  case Importance => exact storeFloat_encodable hS ha hst
  all_goals exact hst

theorem storeMembers_encodable (hS : S.Lawful) (kvs : List (Bytes × JSON)) :
    ∀ {st st1 : NominatimResponse S × List Bytes}, storeMembers S kvs st = .ok st1 →
      (∃ b, S.encodeFloat st.1.Importance = some b) →
      ∃ b, S.encodeFloat st1.1.Importance = some b := by
  induction kvs with
  | nil => intro st st1 h hst; simp only [storeMembers] at h; cases h; exact hst
  | cons kv kvs ih =>
    intro st st1 h hst
    obtain ⟨k, v⟩ := kv
    simp only [storeMembers] at h
    cases hf : fieldOf k with
    | none => simp only [hf] at h; exact ih h hst
    | some f =>
      simp only [hf] at h
      cases hs : storeField S st f v with
      | error e => simp [hs] at h
      | ok st2 =>
        simp only [hs] at h
        exact ih h (storeField_encodable hS hs hst)

theorem storeRecord_encodable (hS : S.Lawful) {v : JSON} {r : NominatimResponse S}
    (h : storeRecord S (NominatimResponse.zero S) v = .ok r) :
    ∃ b, S.encodeFloat r.Importance = some b := by
  have hz : ∃ b, S.encodeFloat (NominatimResponse.zero S).Importance = some b :=
    ⟨[48], hS.encode_zero⟩
  cases v <;> simp only [storeRecord] at h
  case null => cases h; exact hz
  case obj kvs =>
    cases hm : storeMembers S kvs (NominatimResponse.zero S, []) with
    | error e => simp [hm, Except.map] at h
    | ok st1 =>
      simp only [hm, Except.map] at h
      cases h
      exact storeMembers_encodable hS kvs hm hz
  all_goals cases h

theorem storeRecords_encodable (hS : S.Lawful) (es : List JSON) :
    ∀ {rs : List (NominatimResponse S)}, storeRecords S es = .ok rs →
      ∀ r ∈ rs, ∃ b, S.encodeFloat r.Importance = some b := by
  induction es with
  | nil => intro rs h; simp only [storeRecords] at h; cases h; simp
  | cons e es ih =>
    intro rs h
    simp only [storeRecords] at h
    cases h1 : storeRecord S (NominatimResponse.zero S) e with
    | error err => simp [h1] at h
    | ok r1 =>
      simp only [h1] at h
      cases h2 : storeRecords S es with
      | error err => simp [h2] at h
      | ok rs2 =>
        simp only [h2] at h
        cases h
        intro r hr
        rcases List.mem_cons.1 hr with rfl | hr
        · exact storeRecord_encodable hS h1
        · exact ih h2 r hr

/-- What `Decode` stores can always be written by `Marshal`. -/
theorem Decode_encodable (hS : S.Lawful) {body : Bytes} {d : Results S}
    (h : Decode S body = .ok d) : Encodable S d := by
  unfold Decode at h
  cases hv : readFirst body with
  | none => simp [hv] at h
  | some v =>
    simp only [hv] at h
    cases v <;> simp only [storeResults] at h
    case null => cases h; intro rs hrs; cases hrs
    case arr es =>
      cases h2 : storeRecords S es with
      | error err => simp [h2, Except.map] at h
      | ok rs2 =>
        simp only [h2, Except.map] at h
        cases h
        intro rs hrs
        cases hrs
        exact storeRecords_encodable hS es h2
    all_goals cases h

theorem encodeRecords_isSome (rs : List (NominatimResponse S))
    (h : ∀ r ∈ rs, ∃ b, S.encodeFloat r.Importance = some b) :
    ∃ bs, encodeRecords S rs = some bs := by
  induction rs with
  | nil => exact ⟨[], rfl⟩
  | cons r rs ih =>
    obtain ⟨b, hb⟩ := h r (List.mem_cons_self _ _)
    obtain ⟨bs, hbs⟩ := ih (fun r hr => h r (List.mem_cons_of_mem _ hr))
    simp only [encodeRecords, encodeRecord, hb, hbs]
    exact ⟨_, rfl⟩

/-- `Marshal` succeeds on every result whose records can be written. -/
theorem Marshal_isSome {d : Results S} (h : Encodable S d) : ∃ b, Marshal S d = some b := by
  cases d with
  | none => exact ⟨_, rfl⟩
  | some rs =>
    obtain ⟨bs, hbs⟩ := encodeRecords_isSome rs (h rs rfl)
    simp only [Marshal, hbs]
    exact ⟨_, rfl⟩

end Encodability

section Numbers

theorem digitsLoop_eq (n : Nat) : ∀ f, n ≤ f → ∀ acc,
    digitsLoop f n acc =
      (if n < 10 then [48 + n] else digitsLoop (n / 10) (n / 10) [] ++ [48 + n % 10]) ++ acc := by
  induction n using Nat.strong_induction_on with
  | _ n ih =>
    intro f hf acc
    by_cases hn : n < 10
    · cases f with
      | zero =>
        have h0 : n = 0 := by omega
        subst h0
        simp [digitsLoop]
      | succ f => simp [digitsLoop, hn]
    · cases f with
      | zero => omega
      | succ f =>
        have h1 : n / 10 < n := by omega
        have h2 : n / 10 ≤ f := by omega
        simp only [digitsLoop, hn, if_false]
        rw [ih (n / 10) h1 f h2, ih (n / 10) h1 (n / 10) (le_refl _) []]
        simp

theorem formatNat_eq (n : Nat) :
    formatNat n = if n < 10 then [48 + n] else formatNat (n / 10) ++ [48 + n % 10] := by
  unfold formatNat
  rw [digitsLoop_eq n n (le_refl _) []]
  simp

theorem formatNat_digits (n : Nat) : ∀ c ∈ formatNat n, isDigit c = true := by
  induction n using Nat.strong_induction_on with
  | _ n ih =>
    intro c hc
    rw [formatNat_eq] at hc
    by_cases hn : n < 10
    · simp only [hn, if_true, List.mem_singleton] at hc
      subst hc
      simp [isDigit]; omega
    · simp only [hn, if_false, List.mem_append, List.mem_singleton] at hc
      rcases hc with hc | hc
      · exact ih (n / 10) (by omega) c hc
      · subst hc
        simp [isDigit]; omega

/-- The first digit: `0` only for zero. -/
theorem formatNat_head (n : Nat) :
    ∃ h t, formatNat n = h :: t ∧ 48 ≤ h ∧ h ≤ 57 ∧ (h = 48 → n = 0 ∧ t = []) := by
  induction n using Nat.strong_induction_on with
  | _ n ih =>
    rw [formatNat_eq]
    by_cases hn : n < 10
    · simp only [hn, if_true]
      exact ⟨48 + n, [], rfl, by omega, by omega, fun h => ⟨by omega, rfl⟩⟩
    · simp only [hn, if_false]
      obtain ⟨h, t, he, h1, h2, h3⟩ := ih (n / 10) (by omega)
      rw [he]
      refine ⟨h, t ++ [48 + n % 10], rfl, h1, h2, fun h0 => ?_⟩
      have := (h3 h0).1
      omega

theorem foldl_digits_append (a : Bytes) (c : Nat) (init : Nat) :
    (a ++ [c]).foldl (fun acc c => acc * 10 + (c - 48)) init
      = a.foldl (fun acc c => acc * 10 + (c - 48)) init * 10 + (c - 48) := by
  simp [List.foldl_append]

theorem formatNat_value (n : Nat) :
    (formatNat n).foldl (fun acc c => acc * 10 + (c - 48)) 0 = n := by
  induction n using Nat.strong_induction_on with
  | _ n ih =>
    rw [formatNat_eq]
    by_cases hn : n < 10
    · simp [hn]
    · simp only [hn, if_false]
      rw [foldl_digits_append, ih (n / 10) (by omega)]
      omega

theorem parseDigits_formatNat (n : Nat) : parseDigits (formatNat n) = some n := by
  obtain ⟨h, t, he, -⟩ := formatNat_head n
  have hall : (formatNat n).all isDigit = true := by
    rw [List.all_eq_true]; exact formatNat_digits n
  unfold parseDigits
  rw [if_pos ⟨by rw [he]; simp, hall⟩, formatNat_value]

theorem spanDigits_append (ds : Bytes) (hds : ∀ c ∈ ds, isDigit c = true) (c : Nat)
    (hc : isDigit c = false) (rest : Bytes) :
    spanDigits (ds ++ c :: rest) = (ds, c :: rest) := by
  induction ds with
  | nil => simp [spanDigits, hc]
  | cons d ds ih =>
    have hd : isDigit d = true := hds d (List.mem_cons_self _ _)
    have := ih (fun x hx => hds x (List.mem_cons_of_mem _ hx))
    simp [spanDigits, hd, this]

theorem isDelim_not_digit {c : Nat} (hc : isDelim c) : isDigit c = false := by
  rcases hc with rfl | rfl | rfl <;> decide

theorem scanExp_delim (pre : Bytes) {c : Nat} (hc : isDelim c) (rest : Bytes) :
    scanExp pre (c :: rest) = some (pre, c :: rest) := by
  rcases hc with rfl | rfl | rfl <;> simp [scanExp]

theorem scanFrac_delim (pre : Bytes) {c : Nat} (hc : isDelim c) (rest : Bytes) :
    scanFrac pre (c :: rest) = some (pre, c :: rest) := by
  have h := scanExp_delim pre hc rest
  rcases hc with rfl | rfl | rfl <;> simpa [scanFrac] using h

theorem scanInt_formatNat (pre : Bytes) (n : Nat) {c : Nat} (hc : isDelim c) (rest : Bytes) :
    scanInt pre (formatNat n ++ c :: rest) = some (pre ++ formatNat n, c :: rest) := by
  obtain ⟨h, t, he, h1, h2, h3⟩ := formatNat_head n
  have hdig := formatNat_digits n
  rw [he] at hdig ⊢
  have ht : ∀ x ∈ t, isDigit x = true := fun x hx => hdig x (List.mem_cons_of_mem _ hx)
  by_cases h0 : h = 48
  · obtain ⟨-, rfl⟩ := h3 h0
    subst h0
    simp [scanInt, scanFrac_delim _ hc]
  · have h49 : 49 ≤ h := by omega
    simp only [List.cons_append, scanInt, h0, if_false, h49, h2, and_self, if_true]
    rw [spanDigits_append t ht c (isDelim_not_digit hc) rest]
    simp [scanFrac_delim _ hc]

/-- A written integer followed by `,`, `]` or `}` is read as exactly that literal. -/
theorem scanNumber_formatInt (n : Int) {c : Nat} (hc : isDelim c) (rest : Bytes) :
    scanNumber (formatInt n ++ c :: rest) = some (formatInt n, c :: rest) := by
  unfold formatInt
  by_cases hn : n < 0
  · simp only [hn, if_true, List.cons_append, scanNumber]
    rw [scanInt_formatNat [45] n.natAbs hc rest]
    simp
  · simp only [hn, if_false]
    obtain ⟨h, t, he, h1, h2, -⟩ := formatNat_head n.natAbs
    have h45 : h ≠ 45 := by omega
    have := scanInt_formatNat [] n.natAbs hc rest
    rw [he] at this ⊢
    simp only [List.cons_append, List.nil_append] at this ⊢
    unfold scanNumber
    split
    · rename_i heq; simp at heq; omega
    · exact this

/-- `ParseInt` reads a written `int64` back. -/
theorem ParseInt_formatInt (n : Int) (hlo : -(2 ^ 63 : Int) ≤ n) (hhi : n < 2 ^ 63) :
    ParseInt (formatInt n) = some n := by
  unfold formatInt
  by_cases hn : n < 0
  · have hle : n.natAbs ≤ 2 ^ 63 := by omega
    simp only [hn, if_true, ParseInt, parseDigits_formatNat, hle]
    congr 1; omega
  · simp only [hn, if_false]
    obtain ⟨h, t, he, h1, h2, -⟩ := formatNat_head n.natAbs
    have hp := parseDigits_formatNat n.natAbs
    have hlt : n.natAbs < 2 ^ 63 := by omega
    rw [he] at hp ⊢
    unfold ParseInt
    split
    · rename_i heq; simp at heq; omega
    · simp only [hp, hlt, if_true]
      congr 1; omega

end Numbers

/-- The integer stand-in for `float64` satisfies the formatting contract. -/
theorem intFloats_lawful : intFloats.Lawful where
  encode_zero := by decide
  parse_finite := by
    intro lit f h
    simp only [intFloats] at h ⊢
    cases hp : ParseInt lit with
    | none => simp [hp] at h
    | some n =>
      simp only [hp] at h
      by_cases hn : n.natAbs < 1000000000000000
      · simp only [hn, if_true, Option.some.injEq] at h
        subst h
        exact ⟨formatInt n, by simp [hn]⟩
      · simp [hn] at h
  encode_literal := by
    intro f b c rest h hc
    simp only [intFloats] at h f
    by_cases hn : f.natAbs < 1000000000000000
    · simp only [hn, if_true, Option.some.injEq] at h
      subst h
      exact scanNumber_formatInt f hc rest
    · simp [hn] at h
  parse_encode := by
    intro f b h
    simp only [intFloats] at h f ⊢
    by_cases hn : f.natAbs < 1000000000000000
    · simp only [hn, if_true, Option.some.injEq] at h
      subst h
      rw [ParseInt_formatInt f (by omega) (by omega)]
      simp [hn]
    · simp [hn] at h

section Store

theorem Store.lookup_set_ne (st : Store) (q b : Bytes) (ttl now : Nat) (k : Bytes)
    (hk : k ≠ q) (t : Nat) : (st.set q b ttl now).lookup k t = st.lookup k t := by
  unfold Store.set Store.lookup
  have h1 : List.find? (fun p => decide (p.1 = k))
      ((q, (⟨b, now + ttl⟩ : Entry)) :: st.filter (fun p => decide (p.1 ≠ q)))
      = List.find? (fun p => decide (p.1 = k)) st := by
    rw [List.find?_cons_of_neg _ (by simpa using fun h => hk h.symm)]
    induction st with
    | nil => rfl
    | cons p st ih =>
      by_cases hp : p.1 = q
      · have hpk : ¬ p.1 = k := fun h => hk (h ▸ hp)
        rw [List.filter_cons_of_neg (by simpa using hp),
          List.find?_cons_of_neg _ (by simpa using hpk), ih]
      · rw [List.filter_cons_of_pos (by simpa using hp)]
        by_cases hpk : p.1 = k
        · rw [List.find?_cons_of_pos _ (by simpa using hpk),
            List.find?_cons_of_pos _ (by simpa using hpk)]
        · rw [List.find?_cons_of_neg _ (by simpa using hpk),
            List.find?_cons_of_neg _ (by simpa using hpk), ih]
  rw [h1]

theorem Store.lookup_set_self (st : Store) (q b : Bytes) (ttl now t : Nat) :
    (st.set q b ttl now).lookup q t = if t < now + ttl then some b else none := by
  simp [Store.set, Store.lookup]

end Store


section UTF8

theorem DecodeRune_ascii (b : Nat) (s : Bytes) (hb : b < 0x80) : DecodeRune (b :: s) = (b, 1) := by
  simp [DecodeRune, hb]

/-- A multi-byte decoding reads a chunk that `EncodeRune` gives back, and depends on
nothing after the chunk. -/
theorem DecodeRune_multi (b : Nat) (s : Bytes) (hb : 0x80 ≤ b)
    (h1 : (DecodeRune (b :: s)).2 ≠ 1) :
    ∃ chunk t, b :: s = chunk ++ t ∧ chunk.length = (DecodeRune (b :: s)).2
      ∧ 2 ≤ chunk.length ∧ 0x80 ≤ (DecodeRune (b :: s)).1
      ∧ EncodeRune (DecodeRune (b :: s)).1 = chunk
      ∧ ∀ t', DecodeRune (chunk ++ t') = DecodeRune (b :: s) := by
  unfold DecodeRune at h1 ⊢
  have hb' : ¬ b < 0x80 := by omega
  simp only [hb', if_false] at h1 ⊢
  by_cases c1 : b < 0xC2
  · simp [c1] at h1
  simp only [c1, if_false] at h1 ⊢
  by_cases c2 : b < 0xE0
  · simp only [c2, if_true] at h1 ⊢
    match s, h1 with
    | [], h1 => simp at h1
    | b1 :: t, h1 =>
      by_cases hc : isCont b1 = true
      · simp only [hc, if_true] at h1 ⊢
        simp only [isCont, Bool.and_eq_true, decide_eq_true_eq] at hc
        refine ⟨[b, b1], t, rfl, rfl, by simp, by omega, ?_, ?_⟩
        · simp only [EncodeRune]
          rw [if_neg (by omega), if_pos (by omega)]
          congr 1
          · omega
          · congr 1; omega
        · intro t'
          simp [DecodeRune, hb', c1, c2, isCont, hc]
      · simp [hc] at h1
  simp only [c2, if_false] at h1 ⊢
  by_cases c3 : b < 0xF0
  · simp only [c3, if_true] at h1 ⊢
    match s, h1 with
    | [], h1 => simp at h1
    | [_], h1 => simp at h1
    | b1 :: b2 :: t, h1 =>
      by_cases hc : (if b = 0xE0 then 0xA0 else 0x80) ≤ b1
          ∧ b1 ≤ (if b = 0xED then 0x9F else 0xBF) ∧ isCont b2 = true
      · simp only [hc, and_self, if_true] at h1 ⊢
        obtain ⟨hlo, hhi, hc2⟩ := hc
        simp only [isCont, Bool.and_eq_true, decide_eq_true_eq] at hc2
        have hlo' : 0x80 ≤ b1 := by split at hlo <;> omega
        have hhi' : b1 ≤ 0xBF := by split at hhi <;> omega
        have hE0 : b = 0xE0 → 0xA0 ≤ b1 := fun h => by simpa [h] using hlo
        have hED : b = 0xED → b1 ≤ 0x9F := fun h => by simpa [h] using hhi
        refine ⟨[b, b1, b2], t, rfl, rfl, by simp, by omega, ?_, ?_⟩
        · simp only [EncodeRune]
          rw [if_neg (by omega), if_neg (by omega), if_neg (by omega), if_pos (by omega)]
          congr 1
          · omega
          · congr 1
            · omega
            · congr 1; omega
        · intro t'
          simp [DecodeRune, hb', c1, c2, c3, isCont, hc2, hlo, hhi]
      · simp [hc] at h1
  simp only [c3, if_false] at h1 ⊢
  by_cases c4 : b < 0xF5
  · simp only [c4, if_true] at h1 ⊢
    match s, h1 with
    | [], h1 => simp at h1
    | [_], h1 => simp at h1
    | [_, _], h1 => simp at h1
    | b1 :: b2 :: b3 :: t, h1 =>
      by_cases hc : (if b = 0xF0 then 0x90 else 0x80) ≤ b1
          ∧ b1 ≤ (if b = 0xF4 then 0x8F else 0xBF) ∧ isCont b2 = true ∧ isCont b3 = true
      · simp only [hc, and_self, if_true] at h1 ⊢
        obtain ⟨hlo, hhi, hc2, hc3⟩ := hc
        simp only [isCont, Bool.and_eq_true, decide_eq_true_eq] at hc2 hc3
        have hlo' : 0x80 ≤ b1 := by split at hlo <;> omega
        have hhi' : b1 ≤ 0xBF := by split at hhi <;> omega
        have hF0 : b = 0xF0 → 0x90 ≤ b1 := fun h => by simpa [h] using hlo
        have hF4 : b = 0xF4 → b1 ≤ 0x8F := fun h => by simpa [h] using hhi
        refine ⟨[b, b1, b2, b3], t, rfl, rfl, by simp, by omega, ?_, ?_⟩
        · simp only [EncodeRune]
          rw [if_neg (by omega), if_neg (by omega), if_neg (by omega), if_neg (by omega)]
          congr 1
          · omega
          · congr 1
            · omega
            · congr 1
              · omega
              · congr 1; omega
        · intro t'
          simp [DecodeRune, hb', c1, c2, c3, c4, isCont, hc2, hc3, hlo, hhi]
      · simp [hc] at h1
  · simp [c4] at h1


/-- What `EncodeRune` writes for a rune above U+007F decodes as one multi-byte chunk. -/
theorem DecodeRune_EncodeRune (x : Nat) (hx : 0x7F < x) (t : Bytes) :
    ∃ b tl, EncodeRune x = b :: tl ∧ 0x80 ≤ b ∧ 1 ≤ tl.length
      ∧ (DecodeRune (b :: (tl ++ t))).2 = tl.length + 1 := by
  unfold EncodeRune
  rw [if_neg (by omega)]
  by_cases h2 : x ≤ 0x7FF
  · rw [if_pos h2]
    refine ⟨_, _, rfl, by omega, by simp, ?_⟩
    have c0 : ¬ (0xC0 + x / 64 < 0x80) := by omega
    have c1 : ¬ (0xC0 + x / 64 < 0xC2) := by omega
    have c2 : 0xC0 + x / 64 < 0xE0 := by omega
    have hc : 0x80 ≤ 0x80 + x % 64 ∧ 0x80 + x % 64 ≤ 0xBF := by omega
    simp [DecodeRune, c0, c1, c2, isCont, hc]
  rw [if_neg h2]
  by_cases h3 : x > 0x10FFFF ∨ (0xD800 ≤ x ∧ x ≤ 0xDFFF)
  · rw [if_pos h3]
    exact ⟨_, _, rfl, by omega, by simp, by simp [DecodeRune, isCont]⟩
  rw [if_neg h3]
  by_cases h4 : x ≤ 0xFFFF
  · rw [if_pos h4]
    refine ⟨_, _, rfl, by omega, by simp, ?_⟩
    have c0 : ¬ (0xE0 + x / 4096 < 0x80) := by omega
    have c1 : ¬ (0xE0 + x / 4096 < 0xC2) := by omega
    have c2 : ¬ (0xE0 + x / 4096 < 0xE0) := by omega
    have c3 : 0xE0 + x / 4096 < 0xF0 := by omega
    have hlo : (if 0xE0 + x / 4096 = 0xE0 then 0xA0 else 0x80) ≤ 0x80 + x / 64 % 64 := by
      split <;> omega
    have hhi : 0x80 + x / 64 % 64 ≤ (if 0xE0 + x / 4096 = 0xED then 0x9F else 0xBF) := by
      split <;> omega
    have hc : 0x80 ≤ 0x80 + x % 64 ∧ 0x80 + x % 64 ≤ 0xBF := by omega
    simp only [DecodeRune, c0, c1, c2, c3, if_true, if_false, List.cons_append,
      List.nil_append, hlo, hhi, isCont, true_and]
    simp [hc]
  · rw [if_neg h4]
    refine ⟨_, _, rfl, by omega, by simp, ?_⟩
    have c0 : ¬ (0xF0 + x / 262144 < 0x80) := by omega
    have c1 : ¬ (0xF0 + x / 262144 < 0xC2) := by omega
    have c2 : ¬ (0xF0 + x / 262144 < 0xE0) := by omega
    have c3 : ¬ (0xF0 + x / 262144 < 0xF0) := by omega
    have c4 : 0xF0 + x / 262144 < 0xF5 := by omega
    have hlo : (if 0xF0 + x / 262144 = 0xF0 then 0x90 else 0x80) ≤ 0x80 + x / 4096 % 64 := by
      split <;> omega
    have hhi : 0x80 + x / 4096 % 64 ≤ (if 0xF0 + x / 262144 = 0xF4 then 0x8F else 0xBF) := by
      split <;> omega
    have hc2 : 0x80 ≤ 0x80 + x / 64 % 64 ∧ 0x80 + x / 64 % 64 ≤ 0xBF := by omega
    have hc : 0x80 ≤ 0x80 + x % 64 ∧ 0x80 + x % 64 ≤ 0xBF := by omega
    simp only [DecodeRune, c0, c1, c2, c3, c4, if_true, if_false, List.cons_append,
      List.nil_append, hlo, hhi, isCont, true_and]
    simp [hc, hc2]

theorem DecodeRune_size_pos (b : Nat) (s : Bytes) : 1 ≤ (DecodeRune (b :: s)).2 := by
  simp only [DecodeRune]
  repeat' split
  all_goals simp

theorem validUTF8_fuel (k : Nat) : ∀ (s : Bytes), s.length ≤ k → ∀ n m, s.length ≤ n →
    s.length ≤ m → validUTF8 n s = validUTF8 m s := by
  induction k with
  | zero =>
    intro s hs n m _ _
    have : s = [] := List.length_eq_zero.1 (by omega)
    subst this
    cases n <;> cases m <;> simp [validUTF8]
  | succ k ih =>
    intro s hs n m hn hm
    cases s with
    | nil => cases n <;> cases m <;> simp [validUTF8]
    | cons b s =>
      cases n with
      | zero => simp at hn
      | succ n =>
        cases m with
        | zero => simp at hm
        | succ m =>
          simp only [validUTF8]
          split
          · rfl
          · have hl : (s.drop ((DecodeRune (b :: s)).2 - 1)).length ≤ s.length := by
              simp
            simp only [List.length_cons] at hs hn hm
            exact ih _ (by omega) n m (by omega) (by omega)

theorem Valid_nil : Valid [] = true := by simp [Valid, validUTF8]

theorem Valid_cons_ascii (b : Nat) (s : Bytes) (hb : b < 0x80) : Valid (b :: s) = Valid s := by
  have hnot : ¬ ((DecodeRune (b :: s)).2 = 1 ∧ 0x80 ≤ b) := by omega
  unfold Valid
  simp only [List.length_cons, validUTF8]
  rw [if_neg hnot, DecodeRune_ascii b s hb]
  rfl

/-- Validity of a string that starts with a multi-byte rune: the rune is well formed and
the text after it is valid. -/
theorem Valid_cons_multi (b : Nat) (s : Bytes) (hb : 0x80 ≤ b) :
    Valid (b :: s) = (decide ((DecodeRune (b :: s)).2 ≠ 1)
      && Valid (s.drop ((DecodeRune (b :: s)).2 - 1))) := by
  simp only [Valid, List.length_cons, validUTF8]
  by_cases h1 : (DecodeRune (b :: s)).2 = 1
  · simp [h1, hb]
  · have hnot : ¬ ((DecodeRune (b :: s)).2 = 1 ∧ 0x80 ≤ b) := fun h => h1 h.1
    simp only [hnot, if_false, ne_eq, h1, not_false_eq_true, decide_True, Bool.true_and]
    exact validUTF8_fuel s.length _ (by simp) _ _ (by simp) (le_refl _)

theorem Valid_EncodeRune_append (x : Nat) (t : Bytes) :
    Valid (EncodeRune x ++ t) = Valid t := by
  by_cases hx : x ≤ 0x7F
  · have : EncodeRune x = [x] := by simp [EncodeRune, hx]
    rw [this]
    exact Valid_cons_ascii x t (by omega)
  · obtain ⟨b, tl, he, hb, hl, hd⟩ := DecodeRune_EncodeRune x (by omega) t
    rw [he, List.cons_append, Valid_cons_multi b _ hb, hd]
    have h1 : decide (tl.length + 1 ≠ 1) = true := by
      rw [decide_eq_true_eq]; omega
    rw [h1, Bool.true_and, Nat.add_sub_cancel, List.drop_left]

end UTF8

section Strings

variable {S : Toolchain}

theorem readString_ascii_piece (b : Nat) (hb : b < 0x80) (n : Nat) (tail : Bytes) :
    readString (n + 1) ((if htmlSafe b then [b] else escapeByte S b) ++ tail)
      = consRead [b] (readString n tail) := by
  rcases Bool.eq_false_or_eq_true S.shortControlEscapes with hs | hs <;>
    interval_cases b <;>
    simp [htmlSafe, escapeByte, readString, getu4, unhex, hex, unescapeChar, EncodeRune, hs]

theorem ascii_piece_length (b : Nat) :
    1 ≤ (if htmlSafe b then [b] else escapeByte S b).length := by
  unfold escapeByte
  split_ifs <;> simp

/-- Reading back what `encodeState.string` wrote for a valid string gives the string. -/
theorem readString_quoteLoop (k : Nat) : ∀ (s : Bytes), s.length ≤ k → Valid s = true →
    ∀ m n rest, s.length ≤ m → (quoteLoop S m s).length < n →
      readString n (quoteLoop S m s ++ 34 :: rest) = some (s, rest) := by
  induction k with
  | zero =>
    intro s hs _ m n rest _ hn
    have : s = [] := List.length_eq_zero.1 (by omega)
    subst this
    have hq : quoteLoop S m [] = [] := by cases m <;> rfl
    rw [hq] at hn ⊢
    cases n with
    | zero => simp at hn
    | succ n => simp [readString]
  | succ k ih =>
    intro s hs hv m n rest hm hn
    cases s with
    | nil =>
      have hq : quoteLoop S m [] = [] := by cases m <;> rfl
      rw [hq] at hn ⊢
      cases n with
      | zero => simp at hn
      | succ n => simp [readString]
    | cons b s =>
      cases m with
      | zero => simp at hm
      | succ m =>
      cases n with
      | zero => simp at hn
      | succ n =>
      simp only [List.length_cons] at hs hm
      simp only [quoteLoop] at hn ⊢
      by_cases hb : b < 0x80
      · rw [if_pos hb] at hn ⊢
        rw [List.append_assoc, readString_ascii_piece b hb]
        have hl := @ascii_piece_length S b
        rw [List.length_append] at hn
        rw [Valid_cons_ascii b s hb] at hv
        rw [ih s (by omega) hv m n rest (by omega) (by omega)]
        rfl
      · rw [if_neg hb] at hn ⊢
        have hb' : 0x80 ≤ b := by omega
        rw [Valid_cons_multi b s hb', Bool.and_eq_true, decide_eq_true_eq] at hv
        obtain ⟨h1, hvt⟩ := hv
        obtain ⟨chunk, t, hsplit, hlen, hl2, hr80, henc, hdec⟩ := DecodeRune_multi b s hb' h1
        cases chunk with
        | nil => simp at hl2
        | cons c0 ctl =>
        simp only [List.cons_append, List.cons.injEq] at hsplit
        obtain ⟨rfl, rfl⟩ := hsplit
        simp only [List.length_cons] at hlen hl2
        have hdrop : List.drop ((DecodeRune (b :: (ctl ++ t))).2 - 1) (ctl ++ t) = t := by
          rw [← hlen, Nat.add_sub_cancel, List.drop_left]
        have htake : List.take (DecodeRune (b :: (ctl ++ t))).2 (b :: (ctl ++ t)) = b :: ctl := by
          rw [← hlen, List.take_succ_cons, List.take_left]
        have hne : ¬ ((DecodeRune (b :: (ctl ++ t))).1 = RuneError
            ∧ (DecodeRune (b :: (ctl ++ t))).2 = 1) := fun h => h1 h.2
        rw [hdrop] at hvt
        rw [if_neg hne, hdrop, htake] at hn ⊢
        simp only [List.length_append, List.length_cons] at hs hm
        have hdrop' : ∀ X : Bytes,
            List.drop ((DecodeRune (b :: (ctl ++ t))).2 - 1) (ctl ++ X) = X := by
          intro X
          rw [← hlen, Nat.add_sub_cancel, List.drop_left]
        by_cases hls : (DecodeRune (b :: (ctl ++ t))).1 = 0x2028
            ∨ (DecodeRune (b :: (ctl ++ t))).1 = 0x2029
        · rw [if_pos hls] at hn ⊢
          simp only [List.length_append, List.length_cons, List.length_nil] at hn
          have hrec := ih t (by omega) hvt m n rest (by omega) (by omega)
          rcases hls with h | h
          · rw [h] at henc ⊢
            simp [readString, getu4, unhex, hex, hrec, henc, consRead]
          · rw [h] at henc ⊢
            simp [readString, getu4, unhex, hex, hrec, henc, consRead]
        · rw [if_neg hls] at hn ⊢
          simp only [List.length_append, List.length_cons] at hn
          have hrec := ih t (by omega) hvt m n rest (by omega) (by omega)
          have hdec' := hdec (quoteLoop S m t ++ 34 :: rest)
          simp only [List.cons_append, List.append_assoc] at hdec' ⊢
          have c1 : ¬ b = 34 := by omega
          have c2 : ¬ b = 92 := by omega
          have c3 : ¬ b < 0x20 := by omega
          simp only [readString, c1, c2, c3, hb, if_false]
          rw [hdec', henc, hdrop', hrec]
          rfl

end Strings

section Reading

variable {S : Toolchain}

theorem intercalate_comma (l : List Bytes) : List.intercalate [44] l = joinComma l := by
  induction l with
  | nil => rfl
  | cons x l ih =>
    cases l with
    | nil => simp [List.intercalate, joinComma]
    | cons y l =>
      simp only [List.intercalate, List.intersperse, joinComma] at ih ⊢
      simp only [List.flatten, List.singleton_append] at ih ⊢
      rw [ih]

theorem ReadsAny.reads {h : Nat} {txt : Bytes} {v : JSON} (hr : ReadsAny h txt v) :
    Reads h txt v :=
  ⟨hr.1, fun f d c rest _ hf hd => hr.2 f d (c :: rest) hf hd⟩

theorem Reads.mono {h h' : Nat} {txt : Bytes} {v : JSON} (hr : Reads h txt v) (hh : h ≤ h') :
    Reads h' txt v :=
  ⟨hr.1, fun f d c rest hc hf hd => hr.2 f d c rest hc hf (by omega)⟩

theorem skipSpace_startsValue {txt : Bytes} (h : StartsValue txt) (rest : Bytes) :
    skipSpace (txt ++ rest) = txt ++ rest := by
  obtain ⟨a, t, rfl, hs, -, -⟩ := h
  simp [skipSpace, hs]

theorem skipSpace_delim {c : Nat} (hc : isDelim c) (rest : Bytes) :
    skipSpace (c :: rest) = c :: rest := by
  rcases hc with rfl | rfl | rfl <;> simp [skipSpace, isSpace]

/-- A written string is read back. -/
theorem reads_string (s : Bytes) (hv : Valid s = true) :
    ReadsAny 0 (encodeString S s) (JSON.str s) := by
  refine ⟨⟨34, _, rfl, by decide, by decide, by decide⟩, ?_⟩
  intro f d rest hf _
  cases f with
  | zero => simp [encodeString] at hf
  | succ f =>
    simp only [encodeString, List.cons_append, List.append_assoc, List.singleton_append]
    have c1 : ¬ (34 = 123) := by decide
    have c2 : ¬ (34 = 91) := by decide
    simp only [readValue, c1, c2, if_false, if_true, List.nil_append]
    rw [readString_quoteLoop s.length s (le_refl _) hv s.length _ rest (le_refl _)
      (by simp only [List.length_append, List.length_cons]; omega)]
    rfl

/-- A number literal that the scanner delimits is read as that literal. -/
theorem reads_number (b : Bytes)
    (hb : ∀ c rest, isDelim c → scanNumber (b ++ c :: rest) = some (b, c :: rest)) :
    Reads 0 b (JSON.num b) := by
  have h44 := hb 44 [] (Or.inl rfl)
  cases b with
  | nil => simp [scanNumber, scanInt] at h44
  | cons a t =>
    have ha : a = 45 ∨ (48 ≤ a ∧ a ≤ 57) := by
      by_contra hcon
      have h1 : a ≠ 45 := fun h => hcon (Or.inl h)
      have h2 : ¬ (a = 48) := fun h => hcon (Or.inr (by omega))
      have h3 : ¬ (49 ≤ a ∧ a ≤ 57) := fun h => hcon (Or.inr (by omega))
      unfold scanNumber at h44
      split at h44
      · rename_i heq; simp at heq; exact h1 heq.1
      · simp [scanInt, h2, h3] at h44
    refine ⟨⟨a, t, rfl, ?_, by omega, by omega⟩, ?_⟩
    · rcases ha with rfl | ha
      · decide
      · simp only [isSpace, Bool.or_eq_false_iff, decide_eq_false_iff_not]
        omega
    · intro f d c rest hc hf _
      cases f with
      | zero => simp at hf
      | succ f =>
        have c1 : ¬ a = 123 := by omega
        have c2 : ¬ a = 91 := by omega
        have c3 : ¬ a = 34 := by omega
        have c4 : ¬ a = 116 := by omega
        have c5 : ¬ a = 102 := by omega
        have c6 : ¬ a = 110 := by omega
        have := hb c rest hc
        simp only [List.cons_append] at this ⊢
        simp only [readValue, c1, c2, c3, c4, c5, c6, if_false, this]
        rfl

theorem reads_null : ReadsAny 0 (ascii "null") JSON.null := by
  refine ⟨⟨110, _, rfl, by decide, by decide, by decide⟩, ?_⟩
  intro f d rest hf _
  cases f with
  | zero => simp [ascii] at hf
  | succ f => simp [ascii, readValue]


theorem joinComma_cons_append (x : Bytes) (l : List Bytes) :
    ∃ t, joinComma (x :: l) = x ++ t := by
  cases l with
  | nil => exact ⟨[], by simp [joinComma]⟩
  | cons y l => exact ⟨44 :: joinComma (y :: l), rfl⟩

theorem StartsValue.append {txt : Bytes} (h : StartsValue txt) (t : Bytes) :
    StartsValue (txt ++ t) := by
  obtain ⟨a, u, rfl, h1, h2, h3⟩ := h
  exact ⟨a, u ++ t, rfl, h1, h2, h3⟩

theorem readElems_step (f d : Nat) (bs : Bytes) (v : JSON) (c : Nat) (r1 : Bytes)
    (hv : readValue f d bs = some (v, c :: r1)) (hc : isDelim c) :
    readElems (f + 1) d bs =
      if c = 44 then (readElems f d (skipSpace r1)).map fun p => (v :: p.1, p.2)
      else if c = 93 then some ([v], r1) else none := by
  simp only [readElems, hv, skipSpace_delim hc]

theorem readMembers_step (f d : Nat) (s k tail : Bytes) (v : JSON) (c : Nat) (r3 : Bytes)
    (hkey : readString (s.length + 1) s = some (k, 58 :: tail))
    (hsk : skipSpace tail = tail)
    (hv : readValue f d tail = some (v, c :: r3)) (hc : isDelim c) :
    readMembers (f + 1) d (34 :: s) =
      if c = 44 then (readMembers f d (skipSpace r3)).map fun p => ((k, v) :: p.1, p.2)
      else if c = 125 then some ([(k, v)], r3) else none := by
  have h58 : skipSpace (58 :: tail) = 58 :: tail := by simp [skipSpace, isSpace]
  simp only [readMembers, if_true, hkey, h58, hsk, hv, skipSpace_delim hc]

theorem readValue_array (f d c1 : Nat) (r : Bytes) (hd : d < maxNestingDepth)
    (h1 : isSpace c1 = false) (h2 : c1 ≠ 93) :
    readValue (f + 1) d (91 :: c1 :: r) =
      (readElems f (d + 1) (c1 :: r)).map fun p => (JSON.arr p.1, p.2) := by
  have c1' : ¬ (91 = 123) := by decide
  simp only [readValue, c1', if_false, if_true, hd, skipSpace, h1, Bool.false_eq_true, h2]

theorem readValue_object (f d c1 : Nat) (r : Bytes) (hd : d < maxNestingDepth)
    (h1 : isSpace c1 = false) (h2 : c1 ≠ 125) :
    readValue (f + 1) d (123 :: c1 :: r) =
      (readMembers f (d + 1) (c1 :: r)).map fun p => (JSON.obj p.1, p.2) := by
  simp only [readValue, if_true, hd, skipSpace, h1, Bool.false_eq_true, if_false, h2]

/-- The elements of a written array are read back, up to the closing bracket. -/
theorem readElems_items (h : Nat) : ∀ (items : List (Bytes × JSON)), items ≠ [] →
    (∀ p ∈ items, Reads h p.1 p.2) → ∀ f d rest,
    (joinComma (items.map (·.1))).length < f → d + h ≤ maxNestingDepth →
    readElems f d (joinComma (items.map (·.1)) ++ 93 :: rest)
      = some (items.map (·.2), rest) := by
  intro items
  induction items with
  | nil => intro h0; exact absurd rfl h0
  | cons x l ih =>
    intro _ hall f d rest hf hd
    have hx := hall x (List.mem_cons_self _ _)
    cases f with
    | zero => simp at hf
    | succ f =>
      cases l with
      | nil =>
        have hj : joinComma (List.map (·.1) [x]) = x.1 := rfl
        rw [hj] at hf ⊢
        rw [readElems_step f d _ x.2 93 rest
          (hx.2 f d 93 rest (Or.inr (Or.inl rfl)) (by omega) hd) (Or.inr (Or.inl rfl))]
        rfl
      | cons y l =>
        have hy := hall y (List.mem_cons_of_mem _ (List.mem_cons_self _ _))
        have hj : joinComma (List.map (·.1) (x :: y :: l))
            = x.1 ++ 44 :: joinComma (List.map (·.1) (y :: l)) := rfl
        rw [hj] at hf ⊢
        rw [List.length_append, List.length_cons] at hf
        have ih' := ih (by simp) (fun p hp => hall p (List.mem_cons_of_mem _ hp)) f d rest
          (by omega) hd
        obtain ⟨t, ht⟩ := joinComma_cons_append y.1 (l.map (·.1))
        have hsv : StartsValue (joinComma (List.map (·.1) (y :: l)) ++ 93 :: rest) := by
          rw [List.map_cons, ht, List.append_assoc]
          exact hy.1.append _
        have hsk := skipSpace_startsValue hsv []
        rw [List.append_nil] at hsk
        rw [List.append_assoc, List.cons_append]
        rw [readElems_step f d _ x.2 44 _
          (hx.2 f d 44 _ (Or.inl rfl) (by omega) hd) (Or.inl rfl)]
        rw [if_pos rfl, hsk, ih']
        rfl

/-- A written array with at least one element is read back. -/
theorem reads_array (h : Nat) (items : List (Bytes × JSON)) (hne : items ≠ [])
    (hall : ∀ p ∈ items, Reads h p.1 p.2) :
    ReadsAny (h + 1) (91 :: joinComma (items.map (·.1)) ++ [93])
      (JSON.arr (items.map (·.2))) := by
  refine ⟨⟨91, _, rfl, by decide, by decide, by decide⟩, ?_⟩
  intro f d rest hf hd
  cases f with
  | zero => simp at hf
  | succ f =>
    simp only [List.cons_append, List.length_cons, List.length_append, List.length_nil] at hf
    have hdl : d < maxNestingDepth := by omega
    have hre := readElems_items h items hne hall f (d + 1) rest (by omega) (by omega)
    obtain ⟨x, l, rfl⟩ := List.exists_cons_of_ne_nil hne
    obtain ⟨a, u, hau, h1, h2, h3⟩ := (hall x (List.mem_cons_self _ _)).1
    obtain ⟨t, ht⟩ := joinComma_cons_append x.1 (l.map (·.1))
    have hshape : joinComma (List.map (·.1) (x :: l)) ++ 93 :: rest
        = a :: (u ++ t ++ 93 :: rest) := by
      rw [List.map_cons, ht, hau]; simp
    have hshape2 : (91 :: joinComma (List.map (·.1) (x :: l)) ++ [93]) ++ rest
        = 91 :: a :: (u ++ t ++ 93 :: rest) := by
      rw [List.map_cons, ht, hau]; simp
    rw [hshape] at hre
    rw [hshape2, readValue_array f d a _ hdl h1 h2, hre]
    rfl

theorem reads_empty_array : ReadsAny 1 (ascii "[]") (JSON.arr []) := by
  refine ⟨⟨91, _, rfl, by decide, by decide, by decide⟩, ?_⟩
  intro f d rest hf hd
  cases f with
  | zero => simp [ascii] at hf
  | succ f =>
    have hdl : d < maxNestingDepth := by omega
    simp [ascii, readValue, hdl, skipSpace, isSpace]

theorem memberText_startsValue (m : Bytes × Bytes × JSON) : StartsValue (memberText S m) :=
  ⟨34, _, rfl, by decide, by decide, by decide⟩

theorem memberText_append (m : Bytes × Bytes × JSON) (r : Bytes) :
    memberText S m ++ r = 34 :: (quoteLoop S m.1.length m.1 ++ 34 :: 58 :: (m.2.1 ++ r)) := by
  simp [memberText, encodeString]

theorem memberText_length (m : Bytes × Bytes × JSON) :
    (memberText S m).length = (quoteLoop S m.1.length m.1).length + m.2.1.length + 3 := by
  simp [memberText, encodeString]; omega

/-- The members of a written object are read back, up to the closing brace. -/
theorem readMembers_items (h : Nat) : ∀ (ms : List (Bytes × Bytes × JSON)), ms ≠ [] →
    (∀ m ∈ ms, Valid m.1 = true ∧ Reads h m.2.1 m.2.2) → ∀ f d rest,
    (joinComma (ms.map (memberText S))).length < f → d + h ≤ maxNestingDepth →
    readMembers f d (joinComma (ms.map (memberText S)) ++ 125 :: rest)
      = some (ms.map (fun m => (m.1, m.2.2)), rest) := by
  intro ms
  induction ms with
  | nil => intro h0; exact absurd rfl h0
  | cons x l ih =>
    intro _ hall f d rest hf hd
    obtain ⟨hk, hx⟩ := hall x (List.mem_cons_self _ _)
    cases f with
    | zero => simp at hf
    | succ f =>
      have hkey : ∀ tail : Bytes,
          readString ((quoteLoop S x.1.length x.1 ++ 34 :: tail).length + 1)
            (quoteLoop S x.1.length x.1 ++ 34 :: tail) = some (x.1, tail) := fun tail =>
        readString_quoteLoop x.1.length x.1 (le_refl _) hk x.1.length _ tail (le_refl _)
          (by simp only [List.length_append, List.length_cons]; omega)
      have hlen := @memberText_length S x
      cases l with
      | nil =>
        have hj : joinComma (List.map (memberText S) [x]) = memberText S x := rfl
        rw [hj] at hf ⊢
        rw [memberText_append]
        rw [readMembers_step f d _ x.1 _ x.2.2 125 rest (hkey _)
          (skipSpace_startsValue hx.1 _)
          (hx.2 f d 125 rest (Or.inr (Or.inr rfl)) (by omega) hd) (Or.inr (Or.inr rfl))]
        rfl
      | cons y l =>
        have hj : joinComma (List.map (memberText S) (x :: y :: l))
            = memberText S x ++ 44 :: joinComma (List.map (memberText S) (y :: l)) := rfl
        rw [hj] at hf ⊢
        rw [List.length_append, List.length_cons] at hf
        have ih' := ih (by simp) (fun p hp => hall p (List.mem_cons_of_mem _ hp)) f d rest
          (by omega) hd
        obtain ⟨t, ht⟩ := joinComma_cons_append (memberText S y) (l.map (memberText S))
        have hsv2 : StartsValue (joinComma (List.map (memberText S) (y :: l)) ++ 125 :: rest) := by
          rw [List.map_cons, ht, List.append_assoc]
          exact (memberText_startsValue y).append _
        have hsk := skipSpace_startsValue hsv2 []
        rw [List.append_nil] at hsk
        rw [List.append_assoc, memberText_append, List.cons_append]
        rw [readMembers_step f d _ x.1 _ x.2.2 44 _ (hkey _)
          (skipSpace_startsValue hx.1 _)
          (hx.2 f d 44 _ (Or.inl rfl) (by omega) hd) (Or.inl rfl)]
        rw [if_pos rfl, hsk, ih']
        rfl

/-- A written object with at least one member is read back. -/
theorem reads_object (h : Nat) (ms : List (Bytes × Bytes × JSON)) (hne : ms ≠ [])
    (hall : ∀ m ∈ ms, Valid m.1 = true ∧ Reads h m.2.1 m.2.2) :
    ReadsAny (h + 1) (123 :: joinComma (ms.map (memberText S)) ++ [125])
      (JSON.obj (ms.map (fun m => (m.1, m.2.2)))) := by
  refine ⟨⟨123, _, rfl, by decide, by decide, by decide⟩, ?_⟩
  intro f d rest hf hd
  cases f with
  | zero => simp at hf
  | succ f =>
    simp only [List.cons_append, List.length_cons, List.length_append, List.length_nil] at hf
    have hdl : d < maxNestingDepth := by omega
    have hre := @readMembers_items S h ms hne hall f (d + 1) rest (by omega) (by omega)
    obtain ⟨x, l, rfl⟩ := List.exists_cons_of_ne_nil hne
    obtain ⟨t, ht⟩ := joinComma_cons_append (memberText S x) (l.map (memberText S))
    have hshape : joinComma (List.map (memberText S) (x :: l)) ++ 125 :: rest
        = 34 :: (quoteLoop S x.1.length x.1 ++ 34 :: 58 :: (x.2.1 ++ (t ++ 125 :: rest))) := by
      rw [List.map_cons, ht, List.append_assoc, memberText_append]
    have hshape2 : (123 :: joinComma (List.map (memberText S) (x :: l)) ++ [125]) ++ rest
        = 123 :: 34 :: (quoteLoop S x.1.length x.1 ++ 34 :: 58 :: (x.2.1 ++ (t ++ 125 :: rest))) := by
      rw [← hshape]; simp
    rw [hshape] at hre
    rw [hshape2, readValue_object f d 34 _ hdl (by decide) (by decide), hre]
    rfl

end Reading

section Typed

variable {S : Toolchain}

theorem encodeRecord_eq (r : NominatimResponse S) (imp : Bytes)
    (himp : S.encodeFloat r.Importance = some imp) :
    encodeRecord S r = some (123 :: joinComma ((recordMembers S r imp).map (memberText S)) ++ [125]) := by
  have k1 : ascii "\x7b\"place_id\":" = 123 :: (encodeString S Field.PlaceID.tag ++ [58]) := by rfl
  have k2 : ascii ",\"licence\":" = 44 :: (encodeString S Field.Licence.tag ++ [58]) := by rfl
  have k3 : ascii ",\"osm_type\":" = 44 :: (encodeString S Field.OsmType.tag ++ [58]) := by rfl
  have k4 : ascii ",\"osm_id\":" = 44 :: (encodeString S Field.OsmID.tag ++ [58]) := by rfl
  have k5 : ascii ",\"boundingbox\":" = 44 :: (encodeString S Field.Boundingbox.tag ++ [58]) := by
    rfl
  have k6 : ascii ",\"lat\":" = 44 :: (encodeString S Field.Lat.tag ++ [58]) := by rfl
  have k7 : ascii ",\"lon\":" = 44 :: (encodeString S Field.Lon.tag ++ [58]) := by rfl
  have k8 : ascii ",\"display_name\":" = 44 :: (encodeString S Field.DisplayName.tag ++ [58]) := by
    rfl
  have k9 : ascii ",\"class\":" = 44 :: (encodeString S Field.Class.tag ++ [58]) := by rfl
  have k10 : ascii ",\"type\":" = 44 :: (encodeString S Field.Type_.tag ++ [58]) := by rfl
  have k11 : ascii ",\"importance\":" = 44 :: (encodeString S Field.Importance.tag ++ [58]) := by
    rfl
  have k12 : ascii ",\"icon\":" = 44 :: (encodeString S Field.Icon.tag ++ [58]) := by rfl
  have k13 : ascii "\x7d" = [125] := by rfl
  simp only [encodeRecord, himp, k1, k2, k3, k4, k5, k6, k7, k8, k9, k10, k11, k12, k13,
    recordMembers, List.map_cons, List.map_nil, joinComma, memberText, List.append_assoc,
    List.cons_append, List.nil_append, List.singleton_append]


theorem reads_formatInt (n : Int) : Reads 0 (formatInt n) (JSON.num (formatInt n)) :=
  reads_number _ (fun _ rest hc => scanNumber_formatInt n hc rest)

theorem reads_strings (bb : Option (List Bytes))
    (hv : ∀ xs, bb = some xs → ∀ x ∈ xs, Valid x = true) :
    Reads 1 (encodeStrings S bb) (stringsJSON bb) := by
  cases bb with
  | none => exact (reads_null.reads).mono (by omega)
  | some xs =>
    cases xs with
    | nil => exact reads_empty_array.reads
    | cons x xs =>
      have h := reads_array 0 ((x :: xs).map fun s => (encodeString S s, JSON.str s)) (by simp)
        (by
          intro p hp
          obtain ⟨s, hs, rfl⟩ := List.mem_map.1 hp
          exact (reads_string s (hv _ rfl s hs)).reads)
      simp only [List.map_map] at h
      have e1 : ((fun p : Bytes × JSON => p.1) ∘ fun s => (encodeString S s, JSON.str s))
          = encodeString S := rfl
      have e2 : ((fun p : Bytes × JSON => p.2) ∘ fun s => (encodeString S s, JSON.str s))
          = JSON.str := rfl
      rw [e1, e2] at h
      simp only [encodeStrings, stringsJSON, intercalate_comma]
      exact h.reads

theorem tag_valid (f : Field) : Valid f.tag = true := by
  cases f <;> rfl

/-- A written record is read back as the object of its members. -/
theorem reads_record (hS : S.Lawful) (r : NominatimResponse S) (imp : Bytes)
    (himp : S.encodeFloat r.Importance = some imp) (hwf : r.wellFormed = true) :
    ReadsAny 2 (123 :: joinComma ((recordMembers S r imp).map (memberText S)) ++ [125])
      (recordJSON S r imp) := by
  simp only [NominatimResponse.wellFormed, Bool.and_eq_true] at hwf
  obtain ⟨⟨⟨⟨⟨⟨⟨⟨⟨⟨-, -⟩, h3⟩, h4⟩, h5⟩, h6⟩, h7⟩, h8⟩, h9⟩, h10⟩, hbb⟩ := hwf
  have hbb' : ∀ xs, r.Boundingbox = some xs → ∀ x ∈ xs, Valid x = true := by
    intro xs hxs x hx
    rw [hxs] at hbb
    exact List.all_eq_true.1 hbb x hx
  have hnum : Reads 1 imp (JSON.num imp) :=
    (reads_number imp (fun c rest hc => hS.encode_literal _ _ c rest himp hc)).mono (by omega)
  have hint : ∀ n : Int, Reads 1 (formatInt n) (JSON.num (formatInt n)) := fun n =>
    (reads_formatInt n).mono (by omega)
  have hstr : ∀ s : Bytes, Valid s = true → Reads 1 (encodeString S s) (JSON.str s) := fun s hs =>
    (reads_string s hs).reads.mono (by omega)
  apply reads_object 1 (recordMembers S r imp) (by simp [recordMembers])
  intro m hm
  simp only [recordMembers, List.mem_cons, List.mem_singleton, List.not_mem_nil, or_false] at hm
  rcases hm with rfl | rfl | rfl | rfl | rfl | rfl | rfl | rfl | rfl | rfl | rfl | rfl
  · exact ⟨tag_valid Field.PlaceID, hint r.PlaceID⟩
  · exact ⟨tag_valid Field.Licence, hstr r.Licence h3⟩
  · exact ⟨tag_valid Field.OsmType, hstr r.OsmType h4⟩
  · exact ⟨tag_valid Field.OsmID, hint r.OsmID⟩
  · exact ⟨tag_valid Field.Boundingbox, reads_strings r.Boundingbox hbb'⟩
  · exact ⟨tag_valid Field.Lat, hstr r.Lat h5⟩
  · exact ⟨tag_valid Field.Lon, hstr r.Lon h6⟩
  · exact ⟨tag_valid Field.DisplayName, hstr r.DisplayName h7⟩
  · exact ⟨tag_valid Field.Class, hstr r.Class h8⟩
  · exact ⟨tag_valid Field.Type_, hstr r.Type_ h9⟩
  · exact ⟨tag_valid Field.Importance, hnum⟩
  · exact ⟨tag_valid Field.Icon, hstr r.Icon h10⟩

end Typed

section Storing

variable {S : Toolchain}

theorem take_set_succ (l : List Bytes) : ∀ (i : Nat) (x : Bytes), i < l.length →
    (l.set i x).take (i + 1) = l.take i ++ [x] := by
  induction l with
  | nil => intro i x hi; simp at hi
  | cons a l ih =>
    intro i x hi
    cases i with
    | zero => simp
    | succ i =>
      simp only [List.set_cons_succ, List.take_succ_cons, List.cons_append]
      rw [ih i x (by simpa using hi)]

/-- Storing the elements of a written `[]string` after the prefix `pre` already stored:
the backing array ends up holding `pre ++ xs` in front. -/
theorem storeStringElems_strs (xs : List Bytes) : ∀ (pre array : List Bytes) (i : Nat),
    pre.length = i → array.take i = pre →
    ∃ array', storeStringElems (xs.map JSON.str) i array i
        = .ok (array', i + xs.length, i + xs.length)
      ∧ array'.take (i + xs.length) = pre ++ xs := by
  induction xs with
  | nil =>
    intro pre array i _ ht
    exact ⟨array, rfl, by simpa using ht⟩
  | cons x xs ih =>
    intro pre array i hl ht
    have hle : i ≤ array.length := by
      have := congrArg List.length ht
      rw [List.length_take, hl] at this
      omega
    simp only [List.map_cons, storeStringElems, storeString, le_refl, if_true]
    by_cases hcap : array.length ≤ i
    · have hieq : array.length = i := by omega
      rw [if_pos hcap]
      have hgrow : i < (array.take i ++ List.replicate
          (max 4 (array.length + array.length / 2) - i) ([] : Bytes)).length := by
        rw [List.length_append, List.length_take, List.length_replicate]
        have : i + 1 ≤ max 4 (array.length + array.length / 2) := by
          rcases Nat.lt_or_ge i 4 with h4 | h4
          · exact le_trans (by omega) (le_max_left _ _)
          · exact le_trans (by omega) (le_max_right _ _)
        omega
      obtain ⟨array', h1, h2⟩ := ih (pre ++ [x]) (List.set (array.take i ++ List.replicate
          (max 4 (array.length + array.length / 2) - i) ([] : Bytes)) i x) (i + 1)
        (by simp [hl])
        (by
          rw [take_set_succ _ i x hgrow, List.take_append_of_le_length
            (by rw [List.length_take]; omega), List.take_take, Nat.min_self, ht])
      refine ⟨array', ?_, ?_⟩
      · rw [h1]; congr 3 <;> simp only [List.length_cons] <;> omega
      · rw [show i + (x :: xs).length = i + 1 + xs.length by simp only [List.length_cons]; omega,
          h2]
        simp
    · rw [if_neg hcap]
      obtain ⟨array', h1, h2⟩ := ih (pre ++ [x]) (List.set array i x) (i + 1)
        (by simp [hl])
        (by rw [take_set_succ _ i x (by omega), ht])
      refine ⟨array', ?_, ?_⟩
      · rw [h1]; congr 3 <;> simp only [List.length_cons] <;> omega
      · rw [show i + (x :: xs).length = i + 1 + xs.length by simp only [List.length_cons]; omega,
          h2]
        simp

/-- A written `[]string` is stored back into a fresh field. -/
theorem storeStrings_fresh (bb : Option (List Bytes)) :
    ∃ array, storeStrings none [] (stringsJSON bb) = .ok (bb, array) := by
  cases bb with
  | none => exact ⟨[], rfl⟩
  | some xs =>
    cases xs with
    | nil => exact ⟨[], rfl⟩
    | cons x xs =>
      obtain ⟨array', h1, h2⟩ := storeStringElems_strs (x :: xs) [] [] 0 rfl rfl
      refine ⟨array', ?_⟩
      simp only [stringsJSON, storeStrings, Option.getD_none, List.length_nil, h1]
      simp only [Nat.zero_add, List.length_cons] at h2 ⊢
      rw [if_neg (by omega), Nat.min_self, h2]
      rfl

theorem fieldOf_tag (f : Field) : fieldOf f.tag = some f := by
  cases f <;> rfl


/-- The object written for a record is stored back into a zero element as that record. -/
theorem storeRecord_recordJSON (hS : S.Lawful) (r : NominatimResponse S) (imp : Bytes)
    (himp : S.encodeFloat r.Importance = some imp) (hwf : r.wellFormed = true) :
    storeRecord S (NominatimResponse.zero S) (recordJSON S r imp) = .ok r := by
  simp only [NominatimResponse.wellFormed, Bool.and_eq_true, inInt64, decide_eq_true_eq] at hwf
  obtain ⟨⟨⟨⟨⟨⟨⟨⟨⟨⟨⟨h1lo, h1hi⟩, ⟨h2lo, h2hi⟩⟩, -⟩, -⟩, -⟩, -⟩, -⟩, -⟩, -⟩, -⟩, -⟩ := hwf
  obtain ⟨array, harr⟩ := storeStrings_fresh r.Boundingbox
  have hp1 := ParseInt_formatInt r.PlaceID h1lo h1hi
  have hp2 := ParseInt_formatInt r.OsmID h2lo h2hi
  have hpf := hS.parse_encode _ _ himp
  have hz : (NominatimResponse.zero S).Boundingbox = none := rfl
  cases r
  simp only [recordJSON, recordMembers, storeRecord, List.map_cons, List.map_nil, storeMembers,
    fieldOf_tag, storeField, storeInt, storeString, storeFloat, hp1, hp2, hpf, Except.map, hz,
    harr] at *


/-- The records of a well-formed list that can be written: their texts are what
`encodeRecords` gives, each text is read back as a JSON value, and these values are
stored back as the records. -/
theorem records_written (hS : S.Lawful) : ∀ (rs : List (NominatimResponse S)),
    (∀ r ∈ rs, r.wellFormed = true) → ∀ bs, encodeRecords S rs = some bs →
    ∃ items : List (Bytes × JSON), bs = items.map (·.1) ∧ items.length = rs.length
      ∧ (∀ p ∈ items, Reads 2 p.1 p.2)
      ∧ storeRecords S (items.map (·.2)) = .ok rs := by
  intro rs
  induction rs with
  | nil =>
    intro _ bs hbs
    simp only [encodeRecords, Option.some.injEq] at hbs
    subst hbs
    exact ⟨[], rfl, rfl, by simp, rfl⟩
  | cons r rs ih =>
    intro hwf bs hbs
    simp only [encodeRecords] at hbs
    cases hb : encodeRecord S r with
    | none => simp [hb] at hbs
    | some b =>
      cases hbs' : encodeRecords S rs with
      | none => simp [hb, hbs'] at hbs
      | some bs' =>
        simp only [hb, hbs', Option.some.injEq] at hbs
        subst hbs
        obtain ⟨items, h1, h2, h3, h4⟩ := ih (fun x hx => hwf x (List.mem_cons_of_mem _ hx))
          bs' hbs'
        have hr := hwf r (List.mem_cons_self _ _)
        cases himp : S.encodeFloat r.Importance with
        | none => simp [encodeRecord, himp] at hb
        | some imp =>
          rw [encodeRecord_eq r imp himp, Option.some.injEq] at hb
          refine ⟨(b, recordJSON S r imp) :: items, by simp [h1], by simp [h2], ?_, ?_⟩
          · intro p hp
            rcases List.mem_cons.1 hp with rfl | hp
            · rw [← hb]
              exact (reads_record hS r imp himp hr).reads
            · exact h3 p hp
          · simp only [List.map_cons, storeRecords, storeRecord_recordJSON hS r imp himp hr, h4]

theorem readWhole_of_readsAny {h : Nat} {txt : Bytes} {v : JSON} (hr : ReadsAny h txt v)
    (hh : h ≤ maxNestingDepth) : readWhole txt = some v := by
  have hsk := skipSpace_startsValue hr.1 []
  rw [List.append_nil] at hsk
  have hv := hr.2 (2 * txt.length + 2) 0 [] (by omega) (by omega)
  rw [List.append_nil] at hv
  simp only [readWhole, hsk, hv, skipSpace, if_true]

/-- `Unmarshal` gives back a well-formed result that `Marshal` wrote. -/
theorem Unmarshal_Marshal (hS : S.Lawful) (X : Results S) (hwf : WellFormed X) (b : Bytes)
    (hb : Marshal S X = some b) : Unmarshal S b = .ok X := by
  cases X with
  | none =>
    simp only [Marshal, Option.some.injEq] at hb
    subst hb
    rfl
  | some rs =>
    simp only [Marshal] at hb
    cases hbs : encodeRecords S rs with
    | none => simp [hbs] at hb
    | some bs =>
      simp only [hbs, Option.some.injEq] at hb
      obtain ⟨items, h1, h2, h3, h4⟩ := records_written hS rs (hwf rs rfl) bs hbs
      cases items with
      | nil =>
        have hrs : rs = [] := List.length_eq_zero.1 (by simpa using h2.symm)
        subst hrs
        subst h1
        subst hb
        rfl
      | cons p items =>
        have hra := reads_array 2 (p :: items) (by simp) h3
        rw [← h1, ← intercalate_comma, hb] at hra
        have hw := readWhole_of_readsAny hra (by decide)
        simp only [Unmarshal, hw, storeResults, h4, Except.map]

end Storing

section Clean

theorem consRead_eq_some {pre : Bytes} {o : Option (Bytes × Bytes)} {t r : Bytes}
    (h : consRead pre o = some (t, r)) : ∃ t', o = some (t', r) ∧ t = pre ++ t' := by
  cases o with
  | none => simp [consRead] at h
  | some p =>
    obtain ⟨t', r'⟩ := p
    simp only [consRead, Option.some.injEq, Prod.mk.injEq] at h
    exact ⟨t', by rw [h.2], h.1.symm⟩

theorem unescapeChar_lt {e b : Nat} (h : unescapeChar e = some b) : b < 0x80 := by
  unfold unescapeChar at h
  split_ifs at h with h1 <;> simp at h <;> omega

/-- What the reader unquotes is valid UTF-8. -/
theorem readString_valid (n : Nat) : ∀ (bs t r : Bytes), readString n bs = some (t, r) →
    Valid t = true := by
  induction n with
  | zero => intro bs t r h; simp [readString] at h
  | succ n ih =>
    intro bs t r h
    cases bs with
    | nil => simp [readString] at h
    | cons c s =>
      simp only [readString] at h
      have stepE : ∀ (x : Nat) (rest' : Bytes),
          consRead (EncodeRune x) (readString n rest') = some (t, r) → Valid t = true := by
        intro x rest' hc
        obtain ⟨t', ht', rfl⟩ := consRead_eq_some hc
        rw [Valid_EncodeRune_append]; exact ih _ _ _ ht'
      have stepA : ∀ (b : Nat) (rest' : Bytes), b < 0x80 →
          consRead [b] (readString n rest') = some (t, r) → Valid t = true := by
        intro b rest' hb hc
        obtain ⟨t', ht', rfl⟩ := consRead_eq_some hc
        rw [List.singleton_append, Valid_cons_ascii b t' hb]; exact ih _ _ _ ht'
      by_cases h1 : c = 34
      · rw [if_pos h1] at h
        simp only [Option.some.injEq, Prod.mk.injEq] at h
        rw [← h.1]; exact Valid_nil
      rw [if_neg h1] at h
      by_cases h2 : c = 92
      · rw [if_pos h2] at h
        cases s with
        | nil => cases h
        | cons e s1 =>
          simp only at h
          by_cases h5 : e = 117
          · rw [if_pos h5] at h
            cases hg : getu4 (92 :: 117 :: s1) with
            | none => rw [hg] at h; cases h
            | some rr =>
              rw [hg] at h
              simp only at h
              by_cases h6 : 0xD800 ≤ rr ∧ rr < 0xE000
              · rw [if_pos h6] at h
                cases hg2 : getu4 (List.drop 4 s1) with
                | none => rw [hg2] at h; exact stepE _ _ h
                | some rr1 =>
                  rw [hg2] at h
                  simp only at h
                  by_cases h7 : rr < 0xDC00 ∧ 0xDC00 ≤ rr1 ∧ rr1 < 0xE000
                  · rw [if_pos h7] at h; exact stepE _ _ h
                  · rw [if_neg h7] at h; exact stepE _ _ h
              · rw [if_neg h6] at h; exact stepE _ _ h
          · rw [if_neg h5] at h
            cases hu : unescapeChar e with
            | none => rw [hu] at h; cases h
            | some b => rw [hu] at h; exact stepA b _ (unescapeChar_lt hu) h
      rw [if_neg h2] at h
      by_cases h3 : c < 0x20
      · rw [if_pos h3] at h; cases h
      rw [if_neg h3] at h
      by_cases h4 : c < 0x80
      · rw [if_pos h4] at h; exact stepA c _ h4 h
      · rw [if_neg h4] at h; exact stepE _ _ h


/-- Every string inside a value that the reader returned is valid UTF-8. -/
theorem read_clean (f : Nat) :
    (∀ d bs v r, readValue f d bs = some (v, r) → v.Clean)
    ∧ (∀ d bs vs r, readElems f d bs = some (vs, r) → ∀ v ∈ vs, v.Clean)
    ∧ (∀ d bs kvs r, readMembers f d bs = some (kvs, r) → ∀ p ∈ kvs, JSON.Clean p.2) := by
  induction f with
  | zero =>
    refine ⟨?_, ?_, ?_⟩ <;> intro d bs v r h <;> simp [readValue, readElems, readMembers] at h
  | succ f ih =>
    obtain ⟨ihV, ihE, ihM⟩ := ih
    refine ⟨?_, ?_, ?_⟩
    · intro d bs v r h
      cases bs with
      | nil => simp [readValue] at h
      | cons c s =>
        simp only [readValue] at h
        by_cases h1 : c = 123
        · rw [if_pos h1] at h
          by_cases hd : d < maxNestingDepth
          · rw [if_pos hd] at h
            cases hs : skipSpace s with
            | nil => rw [hs] at h; cases h
            | cons c1 r1 =>
              rw [hs] at h
              simp only at h
              by_cases h2 : c1 = 125
              · rw [if_pos h2] at h
                simp only [Option.some.injEq, Prod.mk.injEq] at h
                rw [← h.1]
                exact JSON.Clean.obj [] (by simp)
              · rw [if_neg h2] at h
                obtain ⟨p, hp, hpe⟩ := Option.map_eq_some'.1 h
                simp only [Prod.mk.injEq] at hpe
                rw [← hpe.1]
                exact JSON.Clean.obj _ (ihM _ _ p.1 p.2 hp)
          · rw [if_neg hd] at h; cases h
        rw [if_neg h1] at h
        by_cases h2 : c = 91
        · rw [if_pos h2] at h
          by_cases hd : d < maxNestingDepth
          · rw [if_pos hd] at h
            cases hs : skipSpace s with
            | nil => rw [hs] at h; cases h
            | cons c1 r1 =>
              rw [hs] at h
              simp only at h
              by_cases h3 : c1 = 93
              · rw [if_pos h3] at h
                simp only [Option.some.injEq, Prod.mk.injEq] at h
                rw [← h.1]
                exact JSON.Clean.arr [] (by simp)
              · rw [if_neg h3] at h
                obtain ⟨p, hp, hpe⟩ := Option.map_eq_some'.1 h
                simp only [Prod.mk.injEq] at hpe
                rw [← hpe.1]
                exact JSON.Clean.arr _ (ihE _ _ p.1 p.2 hp)
          · rw [if_neg hd] at h; cases h
        rw [if_neg h2] at h
        by_cases h3 : c = 34
        · rw [if_pos h3] at h
          obtain ⟨p, hp, hpe⟩ := Option.map_eq_some'.1 h
          simp only [Prod.mk.injEq] at hpe
          rw [← hpe.1]
          exact JSON.Clean.str _ (readString_valid _ _ p.1 p.2 hp)
        rw [if_neg h3] at h
        by_cases h4 : c = 116
        · rw [if_pos h4] at h
          split at h
          · simp only [Option.some.injEq, Prod.mk.injEq] at h
            rw [← h.1]; exact JSON.Clean.bool _
          · cases h
        rw [if_neg h4] at h
        by_cases h5 : c = 102
        · rw [if_pos h5] at h
          split at h
          · simp only [Option.some.injEq, Prod.mk.injEq] at h
            rw [← h.1]; exact JSON.Clean.bool _
          · cases h
        rw [if_neg h5] at h
        by_cases h6 : c = 110
        · rw [if_pos h6] at h
          split at h
          · simp only [Option.some.injEq, Prod.mk.injEq] at h
            rw [← h.1]; exact JSON.Clean.null
          · cases h
        rw [if_neg h6] at h
        obtain ⟨p, hp, hpe⟩ := Option.map_eq_some'.1 h
        simp only [Prod.mk.injEq] at hpe
        rw [← hpe.1]
        exact JSON.Clean.num _
    · intro d bs vs r h
      simp only [readElems] at h
      cases hv : readValue f d bs with
      | none => rw [hv] at h; cases h
      | some p =>
        obtain ⟨v, r0⟩ := p
        rw [hv] at h
        simp only at h
        have hcv := ihV _ _ _ _ hv
        cases hs : skipSpace r0 with
        | nil => rw [hs] at h; cases h
        | cons c r1 =>
          rw [hs] at h
          simp only at h
          by_cases h1 : c = 44
          · rw [if_pos h1] at h
            obtain ⟨p, hp, hpe⟩ := Option.map_eq_some'.1 h
            simp only [Prod.mk.injEq] at hpe
            rw [← hpe.1]
            intro x hx
            rcases List.mem_cons.1 hx with rfl | hx
            · exact hcv
            · exact ihE _ _ p.1 p.2 hp x hx
          · rw [if_neg h1] at h
            by_cases h2 : c = 93
            · rw [if_pos h2] at h
              simp only [Option.some.injEq, Prod.mk.injEq] at h
              rw [← h.1]
              intro x hx
              rw [List.mem_singleton] at hx
              rw [hx]; exact hcv
            · rw [if_neg h2] at h; cases h
    · intro d bs kvs r h
      cases bs with
      | nil => simp [readMembers] at h
      | cons q s =>
        simp only [readMembers] at h
        by_cases hq : q = 34
        · rw [if_pos hq] at h
          cases hk : readString (s.length + 1) s with
          | none => rw [hk] at h; cases h
          | some kr =>
            obtain ⟨k, r0⟩ := kr
            rw [hk] at h
            simp only at h
            cases hs : skipSpace r0 with
            | nil => rw [hs] at h; cases h
            | cons c r1 =>
              rw [hs] at h
              simp only at h
              by_cases hc : c = 58
              · rw [if_pos hc] at h
                cases hv : readValue f d (skipSpace r1) with
                | none => rw [hv] at h; cases h
                | some p =>
                  obtain ⟨v, r2⟩ := p
                  rw [hv] at h
                  simp only at h
                  have hcv := ihV _ _ _ _ hv
                  cases hs2 : skipSpace r2 with
                  | nil => rw [hs2] at h; cases h
                  | cons c2 r3 =>
                    rw [hs2] at h
                    simp only at h
                    by_cases h1 : c2 = 44
                    · rw [if_pos h1] at h
                      obtain ⟨p, hp, hpe⟩ := Option.map_eq_some'.1 h
                      simp only [Prod.mk.injEq] at hpe
                      rw [← hpe.1]
                      intro x hx
                      rcases List.mem_cons.1 hx with rfl | hx
                      · exact hcv
                      · exact ihM _ _ p.1 p.2 hp x hx
                    · rw [if_neg h1] at h
                      by_cases h2 : c2 = 125
                      · rw [if_pos h2] at h
                        simp only [Option.some.injEq, Prod.mk.injEq] at h
                        rw [← h.1]
                        intro x hx
                        rw [List.mem_singleton] at hx
                        rw [hx]; exact hcv
                      · rw [if_neg h2] at h; cases h
              · rw [if_neg hc] at h; cases h
        · rw [if_neg hq] at h; cases h

end Clean

section WF

variable {S : Toolchain}

theorem wellFormed_iff (r : NominatimResponse S) :
    r.wellFormed = true ↔
      (inInt64 r.PlaceID = true ∧ inInt64 r.OsmID = true ∧ Valid r.Licence = true
        ∧ Valid r.OsmType = true ∧ Valid r.Lat = true ∧ Valid r.Lon = true
        ∧ Valid r.DisplayName = true ∧ Valid r.Class = true ∧ Valid r.Type_ = true
        ∧ Valid r.Icon = true
        ∧ ∀ xs, r.Boundingbox = some xs → ∀ x ∈ xs, Valid x = true) := by
  simp only [NominatimResponse.wellFormed, Bool.and_eq_true]
  constructor
  · rintro ⟨⟨⟨⟨⟨⟨⟨⟨⟨⟨h1, h2⟩, h3⟩, h4⟩, h5⟩, h6⟩, h7⟩, h8⟩, h9⟩, h10⟩, hbb⟩
    refine ⟨h1, h2, h3, h4, h5, h6, h7, h8, h9, h10, ?_⟩
    intro xs hxs x hx
    rw [hxs] at hbb
    exact List.all_eq_true.1 hbb x hx
  · rintro ⟨h1, h2, h3, h4, h5, h6, h7, h8, h9, h10, hbb⟩
    refine ⟨⟨⟨⟨⟨⟨⟨⟨⟨⟨h1, h2⟩, h3⟩, h4⟩, h5⟩, h6⟩, h7⟩, h8⟩, h9⟩, h10⟩, ?_⟩
    cases hb : r.Boundingbox with
    | none => rfl
    | some xs => exact List.all_eq_true.2 (hbb xs hb)

theorem ParseInt_range {lit : Bytes} {n : Int} (h : ParseInt lit = some n) :
    inInt64 n = true := by
  simp only [inInt64, decide_eq_true_eq]
  unfold ParseInt at h
  split at h
  · split at h
    · split_ifs at h with hn
      · simp only [Option.some.injEq] at h; omega
    · cases h
  · split at h
    · split_ifs at h with hn
      · simp only [Option.some.injEq] at h; omega
    · cases h

theorem storeInt_range {cur x : Int} {v : JSON} (h : storeInt cur v = .ok x)
    (hc : inInt64 cur = true) : inInt64 x = true := by
  cases v <;> simp only [storeInt] at h
  case null => cases h; exact hc
  case num lit =>
    cases hp : ParseInt lit with
    | none => rw [hp] at h; cases h
    | some n =>
      rw [hp] at h
      simp only [Except.ok.injEq] at h
      rw [← h]; exact ParseInt_range hp
  all_goals cases h

theorem storeString_valid {cur x : Bytes} {v : JSON} (h : storeString cur v = .ok x)
    (hc : Valid cur = true) (hv : v.Clean) : Valid x = true := by
  cases v <;> simp only [storeString] at h
  case null => cases h; exact hc
  case str s =>
    simp only [Except.ok.injEq] at h
    cases hv with
    | str _ hs => rw [← h]; exact hs
  all_goals cases h

theorem storeStringElems_valid : ∀ (es : List JSON) (i : Nat) (array : List Bytes) (len : Nat)
    (array' : List Bytes) (len' i' : Nat), (∀ v ∈ es, JSON.Clean v) →
    (∀ x ∈ array, Valid x = true) →
    storeStringElems es i array len = .ok (array', len', i') →
    ∀ x ∈ array', Valid x = true := by
  intro es
  induction es with
  | nil =>
    intro i array len array' len' i' _ ha h
    simp only [storeStringElems, Except.ok.injEq, Prod.mk.injEq] at h
    rw [← h.1]; exact ha
  | cons e es ih =>
    intro i array len array' len' i' hes ha h
    simp only [storeStringElems] at h
    have ha1 : ∀ x ∈ (if array.length ≤ i then
        array.take len ++ List.replicate (max 4 (array.length + array.length / 2) - len)
          ([] : Bytes) else array), Valid x = true := by
      intro x hx
      split_ifs at hx
      · rcases List.mem_append.1 hx with hx | hx
        · exact ha x (List.mem_of_mem_take hx)
        · rw [(List.mem_replicate.1 hx).2]; exact Valid_nil
      · exact ha x hx
    revert h
    generalize (if array.length ≤ i then
        array.take len ++ List.replicate (max 4 (array.length + array.length / 2) - len)
          ([] : Bytes) else array) = array1 at ha1 ⊢
    intro h
    cases hs : storeString (array1.getD i []) e with
    | error err => rw [hs] at h; cases h
    | ok s =>
      rw [hs] at h
      simp only at h
      have hcur : Valid (array1.getD i []) = true := by
        rw [List.getD_eq_getElem?_getD]
        cases hg : array1[i]? with
        | none => exact Valid_nil
        | some y => exact ha1 y (List.getElem?_mem hg)
      have hsv := storeString_valid hs hcur (hes e (List.mem_cons_self _ _))
      refine ih _ _ _ _ _ _ (fun v hv => hes v (List.mem_cons_of_mem _ hv)) ?_ h
      intro x hx
      rcases List.mem_or_eq_of_mem_set hx with hx | hx
      · exact ha1 x hx
      · rw [hx]; exact hsv

theorem storeStrings_valid {cur bb : Option (List Bytes)} {array array' : List Bytes}
    {v : JSON} (h : storeStrings cur array v = .ok (bb, array')) (hv : v.Clean)
    (ha : ∀ x ∈ array, Valid x = true) :
    (∀ xs, bb = some xs → ∀ x ∈ xs, Valid x = true) ∧ ∀ x ∈ array', Valid x = true := by
  cases v <;> simp only [storeStrings] at h
  case null =>
    simp only [Except.ok.injEq, Prod.mk.injEq] at h
    obtain ⟨rfl, rfl⟩ := h
    exact ⟨fun xs hxs => (by cases hxs), fun x hx => (by cases hx)⟩
  case arr es =>
    cases hv with
    | arr _ hes =>
      cases hs : storeStringElems es 0 array (cur.getD []).length with
      | error err => rw [hs] at h; cases h
      | ok res =>
        obtain ⟨array1, len1, i⟩ := res
        rw [hs] at h
        simp only at h
        have hval := storeStringElems_valid es 0 array _ array1 len1 i hes ha hs
        split_ifs at h
        · simp only [Except.ok.injEq, Prod.mk.injEq] at h
          obtain ⟨rfl, rfl⟩ := h
          refine ⟨fun xs hxs => ?_, fun x hx => (by cases hx)⟩
          simp only [Option.some.injEq] at hxs
          rw [← hxs]
          exact fun x hx => by cases hx
        · simp only [Except.ok.injEq, Prod.mk.injEq] at h
          obtain ⟨rfl, rfl⟩ := h
          refine ⟨fun xs hxs => ?_, hval⟩
          simp only [Option.some.injEq] at hxs
          rw [← hxs]
          exact fun x hx => hval x (List.mem_of_mem_take hx)
  all_goals cases h


theorem storeField_wellFormed {st st1 : NominatimResponse S × List Bytes} {f : Field}
    {v : JSON} (h : storeField S st f v = .ok st1) (hv : v.Clean)
    (hst : st.1.wellFormed = true ∧ ∀ x ∈ st.2, Valid x = true) :
    st1.1.wellFormed = true ∧ ∀ x ∈ st1.2, Valid x = true := by
  obtain ⟨hwf, harr⟩ := hst
  rw [wellFormed_iff] at hwf ⊢
  obtain ⟨h1, h2, h3, h4, h5, h6, h7, h8, h9, h10, hbb⟩ := hwf
  cases f <;> simp only [storeField] at h
  case PlaceID =>
    obtain ⟨a, ha, rfl⟩ := map_eq_ok h
    exact ⟨⟨storeInt_range ha h1, h2, h3, h4, h5, h6, h7, h8, h9, h10, hbb⟩, harr⟩
  case OsmID =>
    obtain ⟨a, ha, rfl⟩ := map_eq_ok h
    exact ⟨⟨h1, storeInt_range ha h2, h3, h4, h5, h6, h7, h8, h9, h10, hbb⟩, harr⟩
  case Licence =>
    obtain ⟨a, ha, rfl⟩ := map_eq_ok h
    exact ⟨⟨h1, h2, storeString_valid ha h3 hv, h4, h5, h6, h7, h8, h9, h10, hbb⟩, harr⟩
  case OsmType =>
    obtain ⟨a, ha, rfl⟩ := map_eq_ok h
    exact ⟨⟨h1, h2, h3, storeString_valid ha h4 hv, h5, h6, h7, h8, h9, h10, hbb⟩, harr⟩
  case Lat =>
    obtain ⟨a, ha, rfl⟩ := map_eq_ok h
    exact ⟨⟨h1, h2, h3, h4, storeString_valid ha h5 hv, h6, h7, h8, h9, h10, hbb⟩, harr⟩
  case Lon =>
    obtain ⟨a, ha, rfl⟩ := map_eq_ok h
    exact ⟨⟨h1, h2, h3, h4, h5, storeString_valid ha h6 hv, h7, h8, h9, h10, hbb⟩, harr⟩
  case DisplayName =>
    obtain ⟨a, ha, rfl⟩ := map_eq_ok h
    exact ⟨⟨h1, h2, h3, h4, h5, h6, storeString_valid ha h7 hv, h8, h9, h10, hbb⟩, harr⟩
  case Class =>
    obtain ⟨a, ha, rfl⟩ := map_eq_ok h
    exact ⟨⟨h1, h2, h3, h4, h5, h6, h7, storeString_valid ha h8 hv, h9, h10, hbb⟩, harr⟩
  case Type_ =>
    obtain ⟨a, ha, rfl⟩ := map_eq_ok h
    exact ⟨⟨h1, h2, h3, h4, h5, h6, h7, h8, storeString_valid ha h9 hv, h10, hbb⟩, harr⟩
  case Icon =>
    obtain ⟨a, ha, rfl⟩ := map_eq_ok h
    exact ⟨⟨h1, h2, h3, h4, h5, h6, h7, h8, h9, storeString_valid ha h10 hv, hbb⟩, harr⟩
  case Importance =>
    obtain ⟨a, ha, rfl⟩ := map_eq_ok h
    exact ⟨⟨h1, h2, h3, h4, h5, h6, h7, h8, h9, h10, hbb⟩, harr⟩
  case Boundingbox =>
    obtain ⟨a, ha, rfl⟩ := map_eq_ok h
    obtain ⟨bb, array'⟩ := a
    have := storeStrings_valid ha hv harr
    exact ⟨⟨h1, h2, h3, h4, h5, h6, h7, h8, h9, h10, this.1⟩, this.2⟩

theorem storeMembers_wellFormed (kvs : List (Bytes × JSON)) :
    ∀ {st st1 : NominatimResponse S × List Bytes}, storeMembers S kvs st = .ok st1 →
      (∀ p ∈ kvs, JSON.Clean p.2) →
      (st.1.wellFormed = true ∧ ∀ x ∈ st.2, Valid x = true) →
      st1.1.wellFormed = true ∧ ∀ x ∈ st1.2, Valid x = true := by
  induction kvs with
  | nil => intro st st1 h _ hst; simp only [storeMembers] at h; cases h; exact hst
  | cons kv kvs ih =>
    intro st st1 h hc hst
    obtain ⟨k, v⟩ := kv
    simp only [storeMembers] at h
    have hc' : ∀ p ∈ kvs, JSON.Clean p.2 := fun p hp => hc p (List.mem_cons_of_mem _ hp)
    cases hf : fieldOf k with
    | none => simp only [hf] at h; exact ih h hc' hst
    | some f =>
      simp only [hf] at h
      cases hs : storeField S st f v with
      | error e => simp [hs] at h
      | ok st2 =>
        simp only [hs] at h
        exact ih h hc' (storeField_wellFormed hs (hc (k, v) (List.mem_cons_self _ _)) hst)

theorem zero_wellFormed : (NominatimResponse.zero S).wellFormed = true := by
  rw [wellFormed_iff]
  refine ⟨by simp [NominatimResponse.zero, inInt64], by simp [NominatimResponse.zero, inInt64],
    Valid_nil, Valid_nil, Valid_nil, Valid_nil, Valid_nil,
    Valid_nil, Valid_nil, Valid_nil, ?_⟩
  intro xs hxs
  cases hxs

theorem storeRecord_wellFormed {v : JSON} {r : NominatimResponse S}
    (h : storeRecord S (NominatimResponse.zero S) v = .ok r) (hv : v.Clean) :
    r.wellFormed = true := by
  cases hv with
  | null => simp only [storeRecord, Except.ok.injEq] at h; rw [← h]; exact zero_wellFormed
  | obj kvs hk =>
    simp only [storeRecord] at h
    obtain ⟨a, ha, rfl⟩ := map_eq_ok h
    exact (storeMembers_wellFormed kvs ha hk ⟨zero_wellFormed, fun x hx => (by cases hx)⟩).1
  | bool b => cases h
  | num lit => cases h
  | str s _ => cases h
  | arr xs _ => cases h

theorem storeRecords_wellFormed (es : List JSON) :
    ∀ {rs : List (NominatimResponse S)}, storeRecords S es = .ok rs →
      (∀ v ∈ es, JSON.Clean v) → ∀ r ∈ rs, r.wellFormed = true := by
  induction es with
  | nil => intro rs h _; simp only [storeRecords] at h; cases h; simp
  | cons e es ih =>
    intro rs h hc
    simp only [storeRecords] at h
    cases h1 : storeRecord S (NominatimResponse.zero S) e with
    | error err => simp [h1] at h
    | ok r1 =>
      simp only [h1] at h
      cases h2 : storeRecords S es with
      | error err => simp [h2] at h
      | ok rs2 =>
        simp only [h2] at h
        cases h
        intro r hr
        rcases List.mem_cons.1 hr with rfl | hr
        · exact storeRecord_wellFormed h1 (hc e (List.mem_cons_self _ _))
        · exact ih h2 (fun v hv => hc v (List.mem_cons_of_mem _ hv)) r hr

theorem storeResults_wellFormed {v : JSON} {d : Results S} (h : storeResults S v = .ok d)
    (hv : v.Clean) : WellFormed d := by
  cases hv with
  | null =>
    simp only [storeResults, Except.ok.injEq] at h
    rw [← h]; intro rs hrs; cases hrs
  | arr es hes =>
    simp only [storeResults] at h
    obtain ⟨a, ha, rfl⟩ := map_eq_ok h
    intro rs hrs
    simp only [Option.some.injEq] at hrs
    rw [← hrs]
    exact storeRecords_wellFormed es ha hes
  | bool b => cases h
  | num lit => cases h
  | str s _ => cases h
  | obj kvs _ => cases h

/-- What `Decode` stores is well formed: its strings are valid UTF-8. -/
theorem Decode_wellFormed {body : Bytes} {d : Results S} (h : Decode S body = .ok d) :
    WellFormed d := by
  unfold Decode at h
  cases hv : readFirst body with
  | none => rw [hv] at h; cases h
  | some v =>
    rw [hv] at h
    simp only at h
    unfold readFirst at hv
    obtain ⟨p, hp, hpe⟩ := Option.map_eq_some'.1 hv
    subst hpe
    exact storeResults_wellFormed h ((read_clean _).1 _ _ p.1 p.2 hp)

end WF

section Fuel

theorem skipSpace_length_le (s : Bytes) : (skipSpace s).length ≤ s.length := by
  induction s with
  | nil => simp [skipSpace]
  | cons c s ih =>
    simp only [skipSpace]
    split_ifs
    · simp only [List.length_cons]; omega
    · exact le_refl _

theorem spanDigits_length (s : Bytes) : (spanDigits s).2.length ≤ s.length := by
  induction s with
  | nil => simp [spanDigits]
  | cons c s ih =>
    simp only [spanDigits]
    split_ifs
    · simp only [List.length_cons]; omega
    · exact le_refl _

theorem scanExp_length {pre s lit r : Bytes} (h : scanExp pre s = some (lit, r)) :
    r.length ≤ s.length := by
  cases s with
  | nil => simp only [scanExp, Option.some.injEq, Prod.mk.injEq] at h; rw [← h.2]
  | cons c t =>
    simp only [scanExp] at h
    split_ifs at h with hc
    · split at h
      · rename_i u
        split_ifs at h
        simp only [Option.some.injEq, Prod.mk.injEq] at h
        rw [← h.2]
        have := spanDigits_length u
        simp only [List.length_cons]; omega
      · rename_i u
        split_ifs at h
        simp only [Option.some.injEq, Prod.mk.injEq] at h
        rw [← h.2]
        have := spanDigits_length u
        simp only [List.length_cons]; omega
      · split_ifs at h
        simp only [Option.some.injEq, Prod.mk.injEq] at h
        rw [← h.2]
        have := spanDigits_length t
        simp only [List.length_cons]; omega
    · simp only [Option.some.injEq, Prod.mk.injEq] at h
      rw [← h.2]

theorem scanFrac_length {pre s lit r : Bytes} (h : scanFrac pre s = some (lit, r)) :
    r.length ≤ s.length := by
  unfold scanFrac at h
  split at h
  · rename_i u
    split_ifs at h
    have := scanExp_length h
    have := spanDigits_length u
    simp only [List.length_cons]; omega
  · exact scanExp_length h

theorem scanInt_length {pre s lit r : Bytes} (h : scanInt pre s = some (lit, r)) :
    r.length < s.length := by
  cases s with
  | nil => simp [scanInt] at h
  | cons c t =>
    simp only [scanInt] at h
    split_ifs at h
    · have := scanFrac_length h
      simp only [List.length_cons]; omega
    · have := scanFrac_length h
      have := spanDigits_length t
      simp only [List.length_cons]; omega

theorem scanNumber_length {s lit r : Bytes} (h : scanNumber s = some (lit, r)) :
    r.length < s.length := by
  unfold scanNumber at h
  split at h
  · have := scanInt_length h
    simp only [List.length_cons]; omega
  · exact scanInt_length h


theorem readString_length (n : Nat) : ∀ (bs t r : Bytes), readString n bs = some (t, r) →
    r.length < bs.length := by
  induction n with
  | zero => intro bs t r h; simp [readString] at h
  | succ n ih =>
    intro bs t r h
    cases bs with
    | nil => simp [readString] at h
    | cons c s =>
      simp only [readString] at h
      have step : ∀ (pre rest' : Bytes), rest'.length ≤ s.length →
          consRead pre (readString n rest') = some (t, r) → r.length < (c :: s).length := by
        intro pre rest' hl hc
        obtain ⟨t', ht', -⟩ := consRead_eq_some hc
        have := ih _ _ _ ht'
        simp only [List.length_cons]; omega
      by_cases h1 : c = 34
      · rw [if_pos h1] at h
        simp only [Option.some.injEq, Prod.mk.injEq] at h
        rw [← h.2]; simp
      rw [if_neg h1] at h
      by_cases h2 : c = 92
      · rw [if_pos h2] at h
        cases s with
        | nil => cases h
        | cons e s1 =>
          simp only at h
          have hd4 : (List.drop 4 s1).length ≤ (e :: s1).length := by
            simp only [List.length_drop, List.length_cons]; omega
          have hd10 : (List.drop 10 s1).length ≤ (e :: s1).length := by
            simp only [List.length_drop, List.length_cons]; omega
          by_cases h5 : e = 117
          · rw [if_pos h5] at h
            cases hg : getu4 (92 :: 117 :: s1) with
            | none => rw [hg] at h; cases h
            | some rr =>
              rw [hg] at h
              simp only at h
              by_cases h6 : 0xD800 ≤ rr ∧ rr < 0xE000
              · rw [if_pos h6] at h
                cases hg2 : getu4 (List.drop 4 s1) with
                | none => rw [hg2] at h; exact step _ _ hd4 h
                | some rr1 =>
                  rw [hg2] at h
                  simp only at h
                  by_cases h7 : rr < 0xDC00 ∧ 0xDC00 ≤ rr1 ∧ rr1 < 0xE000
                  · rw [if_pos h7] at h; exact step _ _ hd10 h
                  · rw [if_neg h7] at h; exact step _ _ hd4 h
              · rw [if_neg h6] at h; exact step _ _ hd4 h
          · rw [if_neg h5] at h
            cases hu : unescapeChar e with
            | none => rw [hu] at h; cases h
            | some b =>
              rw [hu] at h
              exact step _ _ (by simp only [List.length_cons]; omega) h
      rw [if_neg h2] at h
      by_cases h3 : c < 0x20
      · rw [if_pos h3] at h; cases h
      rw [if_neg h3] at h
      by_cases h4 : c < 0x80
      · rw [if_pos h4] at h; exact step _ _ (le_refl _) h
      · rw [if_neg h4] at h
        exact step _ _ (by simp only [List.length_drop]; omega) h


/-- The reader consumes input, and its result does not depend on the fuel once the fuel
is twice the number of bytes consumed. -/
theorem read_fuel (f : Nat) :
    (∀ d bs v r, readValue f d bs = some (v, r) → r.length < bs.length
      ∧ ∀ F, 2 * (bs.length - r.length) ≤ F → readValue F d bs = some (v, r))
    ∧ (∀ d bs vs r, readElems f d bs = some (vs, r) → r.length < bs.length
      ∧ ∀ F, 2 * (bs.length - r.length) ≤ F → readElems F d bs = some (vs, r))
    ∧ (∀ d bs kvs r, readMembers f d bs = some (kvs, r) → r.length < bs.length
      ∧ ∀ F, 2 * (bs.length - r.length) ≤ F → readMembers F d bs = some (kvs, r)) := by
  induction f with
  | zero =>
    refine ⟨?_, ?_, ?_⟩ <;> intro d bs v r h <;> simp [readValue, readElems, readMembers] at h
  | succ f ih =>
    obtain ⟨ihV, ihE, ihM⟩ := ih
    refine ⟨?_, ?_, ?_⟩
    · intro d bs v r h
      cases bs with
      | nil => simp [readValue] at h
      | cons c s =>
        have finish : r.length < (c :: s).length →
            (∀ F', 2 * ((c :: s).length - r.length) ≤ F' + 1 →
              readValue (F' + 1) d (c :: s) = some (v, r)) →
            r.length < (c :: s).length
              ∧ ∀ F, 2 * ((c :: s).length - r.length) ≤ F →
                readValue F d (c :: s) = some (v, r) := by
          intro hl hF
          refine ⟨hl, fun F hle => ?_⟩
          obtain ⟨F', rfl⟩ : ∃ F', F = F' + 1 := ⟨F - 1, by omega⟩
          exact hF F' hle
        simp only [readValue] at h
        by_cases h1 : c = 123
        · rw [if_pos h1] at h
          by_cases hd : d < maxNestingDepth
          · rw [if_pos hd] at h
            have hsl := skipSpace_length_le s
            cases hs : skipSpace s with
            | nil => rw [hs] at h; cases h
            | cons c1 r1 =>
              rw [hs] at h hsl
              simp only at h
              by_cases h2 : c1 = 125
              · rw [if_pos h2] at h
                simp only [Option.some.injEq, Prod.mk.injEq] at h
                obtain ⟨rfl, rfl⟩ := h
                refine finish (by simp only [List.length_cons] at hsl ⊢; omega) ?_
                intro F' _
                simp only [readValue, if_pos h1, if_pos hd, hs, if_pos h2]
              · rw [if_neg h2] at h
                obtain ⟨p, hp, hpe⟩ := Option.map_eq_some'.1 h
                simp only [Prod.mk.injEq] at hpe
                obtain ⟨rfl, rfl⟩ := hpe
                obtain ⟨hl, hF⟩ := ihM _ _ _ _ hp
                refine finish (by simp only [List.length_cons] at hsl hl ⊢; omega) ?_
                intro F' hle
                simp only [readValue, if_pos h1, if_pos hd, hs, if_neg h2]
                rw [hF F' (by simp only [List.length_cons] at hsl hl hle ⊢; omega)]
                rfl
          · rw [if_neg hd] at h; cases h
        rw [if_neg h1] at h
        by_cases h2 : c = 91
        · rw [if_pos h2] at h
          by_cases hd : d < maxNestingDepth
          · rw [if_pos hd] at h
            have hsl := skipSpace_length_le s
            cases hs : skipSpace s with
            | nil => rw [hs] at h; cases h
            | cons c1 r1 =>
              rw [hs] at h hsl
              simp only at h
              by_cases h3 : c1 = 93
              · rw [if_pos h3] at h
                simp only [Option.some.injEq, Prod.mk.injEq] at h
                obtain ⟨rfl, rfl⟩ := h
                refine finish (by simp only [List.length_cons] at hsl ⊢; omega) ?_
                intro F' _
                simp only [readValue, if_neg h1, if_pos h2, if_pos hd, hs, if_pos h3]
              · rw [if_neg h3] at h
                obtain ⟨p, hp, hpe⟩ := Option.map_eq_some'.1 h
                simp only [Prod.mk.injEq] at hpe
                obtain ⟨rfl, rfl⟩ := hpe
                obtain ⟨hl, hF⟩ := ihE _ _ _ _ hp
                refine finish (by simp only [List.length_cons] at hsl hl ⊢; omega) ?_
                intro F' hle
                simp only [readValue, if_neg h1, if_pos h2, if_pos hd, hs, if_neg h3]
                rw [hF F' (by simp only [List.length_cons] at hsl hl hle ⊢; omega)]
                rfl
          · rw [if_neg hd] at h; cases h
        rw [if_neg h2] at h
        by_cases h3 : c = 34
        · rw [if_pos h3] at h
          obtain ⟨p, hp, hpe⟩ := Option.map_eq_some'.1 h
          simp only [Prod.mk.injEq] at hpe
          obtain ⟨rfl, rfl⟩ := hpe
          have hl := readString_length _ _ _ _ hp
          refine finish (by simp only [List.length_cons]; omega) ?_
          intro F' _
          simp only [readValue, if_neg h1, if_neg h2, if_pos h3, hp]
          rfl
        rw [if_neg h3] at h
        by_cases h4 : c = 116
        · rw [if_pos h4] at h
          split at h
          · simp only [Option.some.injEq, Prod.mk.injEq] at h
            obtain ⟨rfl, rfl⟩ := h
            refine finish (by simp only [List.length_cons]; omega) ?_
            intro F' _
            simp only [readValue, if_neg h1, if_neg h2, if_neg h3, if_pos h4]
          · cases h
        rw [if_neg h4] at h
        by_cases h5 : c = 102
        · rw [if_pos h5] at h
          split at h
          · simp only [Option.some.injEq, Prod.mk.injEq] at h
            obtain ⟨rfl, rfl⟩ := h
            refine finish (by simp only [List.length_cons]; omega) ?_
            intro F' _
            simp only [readValue, if_neg h1, if_neg h2, if_neg h3, if_neg h4, if_pos h5]
          · cases h
        rw [if_neg h5] at h
        by_cases h6 : c = 110
        · rw [if_pos h6] at h
          split at h
          · simp only [Option.some.injEq, Prod.mk.injEq] at h
            obtain ⟨rfl, rfl⟩ := h
            refine finish (by simp only [List.length_cons]; omega) ?_
            intro F' _
            simp only [readValue, if_neg h1, if_neg h2, if_neg h3, if_neg h4, if_neg h5, if_pos h6]
          · cases h
        rw [if_neg h6] at h
        obtain ⟨p, hp, hpe⟩ := Option.map_eq_some'.1 h
        simp only [Prod.mk.injEq] at hpe
        obtain ⟨rfl, rfl⟩ := hpe
        refine finish (scanNumber_length hp) ?_
        intro F' _
        simp only [readValue, if_neg h1, if_neg h2, if_neg h3, if_neg h4, if_neg h5, if_neg h6, hp]
        rfl
    · intro d bs vs r h
      simp only [readElems] at h
      cases hv : readValue f d bs with
      | none => rw [hv] at h; cases h
      | some p =>
        obtain ⟨v, r0⟩ := p
        rw [hv] at h
        simp only at h
        obtain ⟨hl0, hF0⟩ := ihV _ _ _ _ hv
        have hsl := skipSpace_length_le r0
        cases hs : skipSpace r0 with
        | nil => rw [hs] at h; cases h
        | cons c r1 =>
          rw [hs] at h hsl
          simp only at h
          simp only [List.length_cons] at hsl
          by_cases h1 : c = 44
          · rw [if_pos h1] at h
            obtain ⟨p, hp, hpe⟩ := Option.map_eq_some'.1 h
            simp only [Prod.mk.injEq] at hpe
            obtain ⟨rfl, rfl⟩ := hpe
            obtain ⟨hl, hF⟩ := ihE _ _ _ _ hp
            have hsl1 := skipSpace_length_le r1
            refine ⟨by omega, fun F hle => ?_⟩
            obtain ⟨F', rfl⟩ : ∃ F', F = F' + 1 := ⟨F - 1, by omega⟩
            simp only [readElems]
            rw [hF0 F' (by omega)]
            simp only [hs, if_pos h1]
            rw [hF F' (by omega)]
            rfl
          · rw [if_neg h1] at h
            by_cases h2 : c = 93
            · rw [if_pos h2] at h
              simp only [Option.some.injEq, Prod.mk.injEq] at h
              obtain ⟨rfl, rfl⟩ := h
              refine ⟨by omega, fun F hle => ?_⟩
              obtain ⟨F', rfl⟩ : ∃ F', F = F' + 1 := ⟨F - 1, by omega⟩
              simp only [readElems]
              rw [hF0 F' (by omega)]
              simp only [hs, if_neg h1, if_pos h2]
            · rw [if_neg h2] at h; cases h
    · intro d bs kvs r h
      cases bs with
      | nil => simp [readMembers] at h
      | cons q s =>
        simp only [readMembers] at h
        by_cases hq : q = 34
        · rw [if_pos hq] at h
          cases hk : readString (s.length + 1) s with
          | none => rw [hk] at h; cases h
          | some kr =>
            obtain ⟨k, r0⟩ := kr
            rw [hk] at h
            simp only at h
            have hkl := readString_length _ _ _ _ hk
            have hsl0 := skipSpace_length_le r0
            cases hs : skipSpace r0 with
            | nil => rw [hs] at h; cases h
            | cons c r1 =>
              rw [hs] at h hsl0
              simp only at h
              simp only [List.length_cons] at hsl0
              by_cases hc : c = 58
              · rw [if_pos hc] at h
                have hsl1 := skipSpace_length_le r1
                cases hv : readValue f d (skipSpace r1) with
                | none => rw [hv] at h; cases h
                | some p =>
                  obtain ⟨v, r2⟩ := p
                  rw [hv] at h
                  simp only at h
                  obtain ⟨hlv, hFv⟩ := ihV _ _ _ _ hv
                  have hsl2 := skipSpace_length_le r2
                  cases hs2 : skipSpace r2 with
                  | nil => rw [hs2] at h; cases h
                  | cons c2 r3 =>
                    rw [hs2] at h hsl2
                    simp only at h
                    simp only [List.length_cons] at hsl2
                    by_cases h1 : c2 = 44
                    · rw [if_pos h1] at h
                      obtain ⟨p, hp, hpe⟩ := Option.map_eq_some'.1 h
                      simp only [Prod.mk.injEq] at hpe
                      obtain ⟨rfl, rfl⟩ := hpe
                      obtain ⟨hl, hF⟩ := ihM _ _ _ _ hp
                      have hsl3 := skipSpace_length_le r3
                      refine ⟨by simp only [List.length_cons]; omega, fun F hle => ?_⟩
                      simp only [List.length_cons] at hle
                      obtain ⟨F', rfl⟩ : ∃ F', F = F' + 1 := ⟨F - 1, by omega⟩
                      simp only [readMembers, if_pos hq, hk, hs, if_pos hc]
                      rw [hFv F' (by omega)]
                      simp only [hs2, if_pos h1]
                      rw [hF F' (by omega)]
                      rfl
                    · rw [if_neg h1] at h
                      by_cases h2 : c2 = 125
                      · rw [if_pos h2] at h
                        simp only [Option.some.injEq, Prod.mk.injEq] at h
                        obtain ⟨rfl, rfl⟩ := h
                        refine ⟨by simp only [List.length_cons]; omega, fun F hle => ?_⟩
                        simp only [List.length_cons] at hle
                        obtain ⟨F', rfl⟩ : ∃ F', F = F' + 1 := ⟨F - 1, by omega⟩
                        simp only [readMembers, if_pos hq, hk, hs, if_pos hc]
                        rw [hFv F' (by omega)]
                        simp only [hs2, if_neg h1, if_pos h2]
                      · rw [if_neg h2] at h; cases h
              · rw [if_neg hc] at h; cases h
        · rw [if_neg hq] at h; cases h

/-- The fuel of `readFirst` is enough: whenever the reader, with any fuel, finds a value
at the front of the body, `readFirst` returns it. -/
theorem readFirst_complete (body : Bytes) (f : Nat) (v : JSON) (r : Bytes)
    (h : readValue f 0 (skipSpace body) = some (v, r)) : readFirst body = some v := by
  obtain ⟨hl, hF⟩ := (read_fuel f).1 _ _ _ _ h
  have := skipSpace_length_le body
  unfold readFirst
  rw [hF (2 * body.length + 2) (by omega)]
  rfl

/-- The fuel of `readWhole` is enough. -/
theorem readWhole_complete (b : Bytes) (f : Nat) (v : JSON) (r : Bytes)
    (h : readValue f 0 (skipSpace b) = some (v, r)) (hr : skipSpace r = []) :
    readWhole b = some v := by
  obtain ⟨hl, hF⟩ := (read_fuel f).1 _ _ _ _ h
  have := skipSpace_length_le b
  unfold readWhole
  rw [hF (2 * b.length + 2) (by omega)]
  simp only [hr, if_true]

end Fuel

section QueryEscaping

theorem upperhex_ne (n : Nat) (hn : n < 16) :
    upperhex n ≠ 35 ∧ upperhex n ≠ 38 ∧ upperhex n ≠ 61 ∧ unhex (upperhex n) = some n := by
  interval_cases n <;> decide

theorem kept_byte (c : Nat) (h : shouldEscapeQueryComponent c = false) :
    c ≠ 35 ∧ c ≠ 38 ∧ c ≠ 61 ∧ c ≠ 37 ∧ c ≠ 43 := by
  refine ⟨?_, ?_, ?_, ?_, ?_⟩ <;> rintro rfl <;> revert h <;> decide

theorem QueryEscape_safe (q : Bytes) : ∀ c ∈ QueryEscape q, c ≠ 35 ∧ c ≠ 38 ∧ c ≠ 61 := by
  induction q with
  | nil => intro c hc; simp [QueryEscape] at hc
  | cons a q ih =>
    intro c hc
    simp only [QueryEscape] at hc
    split_ifs at hc with h1 h2
    · rcases List.mem_cons.1 hc with rfl | hc
      · decide
      · exact ih c hc
    · have hh := upperhex_ne (a / 16 % 16) (Nat.mod_lt _ (by decide))
      have hl := upperhex_ne (a % 16) (Nat.mod_lt _ (by decide))
      simp only [List.mem_cons] at hc
      rcases hc with rfl | rfl | rfl | hc
      · decide
      · exact ⟨hh.1, hh.2.1, hh.2.2.1⟩
      · exact ⟨hl.1, hl.2.1, hl.2.2.1⟩
      · exact ih c hc
    · rcases List.mem_cons.1 hc with rfl | hc
      · have := kept_byte c (by simpa using h2)
        exact ⟨this.1, this.2.1, this.2.2.1⟩
      · exact ih c hc

theorem QueryUnescape_QueryEscape (q : Bytes) (hq : ∀ c ∈ q, c < 256) :
    QueryUnescape (QueryEscape q) = some q := by
  induction q with
  | nil => rfl
  | cons a q ih =>
    have ih' := ih (fun c hc => hq c (List.mem_cons_of_mem _ hc))
    have ha := hq a (List.mem_cons_self _ _)
    simp only [QueryEscape]
    split_ifs with h1 h2
    · subst h1
      simp [QueryUnescape, ih']
    · have hh := (upperhex_ne (a / 16 % 16) (Nat.mod_lt _ (by decide))).2.2.2
      have hl := (upperhex_ne (a % 16) (Nat.mod_lt _ (by decide))).2.2.2
      simp only [QueryUnescape, hh, hl, ih', Option.some.injEq, List.cons.injEq, and_true]
      omega
    · have hk := kept_byte a (by simpa using h2)
      have h37 : a ≠ 37 := hk.2.2.2.1
      have h43 : a ≠ 43 := hk.2.2.2.2
      unfold QueryUnescape
      split
      · rename_i heq; cases heq
      · rename_i heq; simp only [List.cons.injEq] at heq; exact absurd heq.1 h37
      · rename_i heq; simp only [List.cons.injEq] at heq; exact absurd heq.1 h37
      · rename_i heq; simp only [List.cons.injEq] at heq; exact absurd heq.1 h43
      · rename_i c s _ _ _ heq
        simp only [List.cons.injEq] at heq
        obtain ⟨rfl, rfl⟩ := heq
        rw [ih']; rfl

theorem dropWhile_ne_append (sep : Nat) (a b : Bytes) (ha : ∀ c ∈ a, c ≠ sep) :
    (a ++ sep :: b).dropWhile (· ≠ sep) = sep :: b := by
  induction a with
  | nil => simp [List.dropWhile]
  | cons x a ih =>
    have hx : x ≠ sep := ha x (List.mem_cons_self _ _)
    simp only [List.cons_append, List.dropWhile, ne_eq, hx, not_false_eq_true, decide_True]
    exact ih (fun c hc => ha c (List.mem_cons_of_mem _ hc))

theorem takeWhile_ne_append (sep : Nat) (a b : Bytes) (ha : ∀ c ∈ a, c ≠ sep) :
    (a ++ sep :: b).takeWhile (· ≠ sep) = a := by
  induction a with
  | nil => simp [List.takeWhile]
  | cons x a ih =>
    have hx : x ≠ sep := ha x (List.mem_cons_self _ _)
    simp only [List.cons_append, List.takeWhile, ne_eq, hx, not_false_eq_true, decide_True]
    exact congrArg (x :: ·) (ih (fun c hc => ha c (List.mem_cons_of_mem _ hc)))

theorem takeWhile_ne_all (sep : Nat) (a : Bytes) (ha : ∀ c ∈ a, c ≠ sep) :
    a.takeWhile (· ≠ sep) = a := by
  induction a with
  | nil => rfl
  | cons x a ih =>
    have hx : x ≠ sep := ha x (List.mem_cons_self _ _)
    simp only [List.takeWhile, ne_eq, hx, not_false_eq_true, decide_True]
    rw [ih (fun c hc => ha c (List.mem_cons_of_mem _ hc))]

theorem splitOn_none (sep : Nat) (a : Bytes) (ha : ∀ c ∈ a, c ≠ sep) :
    splitOn sep a = [a] := by
  induction a with
  | nil => rfl
  | cons x a ih =>
    have hx : x ≠ sep := ha x (List.mem_cons_self _ _)
    simp only [splitOn, hx, if_false, ih (fun c hc => ha c (List.mem_cons_of_mem _ hc))]

theorem splitOn_append (sep : Nat) (a b : Bytes) (ha : ∀ c ∈ a, c ≠ sep) :
    splitOn sep (a ++ sep :: b) = a :: splitOn sep b := by
  induction a with
  | nil => simp [splitOn]
  | cons x a ih =>
    have hx : x ≠ sep := ha x (List.mem_cons_self _ _)
    have ih' := ih (fun c hc => ha c (List.mem_cons_of_mem _ hc))
    simp only [List.cons_append, splitOn, hx, if_false]
    show (match splitOn sep (a ++ sep :: b) with
      | [] => [[x]]
      | w :: ws => (x :: w) :: ws) = (x :: a) :: splitOn sep b
    rw [ih']

/-- With `url.QueryEscape` the query would be preserved: for every query `q`, the
parameters of the address are `q`, reading back as exactly `q`, and `format=json`. -/
theorem addressQueryEscaped_preserves (q : Bytes) (hq : ∀ c ∈ q, c < 256) :
    ParseQuery (rawQuery (addressQueryEscaped q))
      = [(ascii "q", q), (ascii "format", ascii "json")] := by
  have hsafe := QueryEscape_safe q
  have e1 : ascii "https://nominatim.openstreetmap.org/search?q="
      = ascii "https://nominatim.openstreetmap.org/search" ++ 63 :: ascii "q=" := by rfl
  have n1 : ∀ c ∈ ascii "https://nominatim.openstreetmap.org/search", c ≠ 63 := by decide
  have n2 : ∀ c ∈ ascii "q=", c ≠ 35 ∧ c ≠ 38 := by decide
  have n3 : ∀ c ∈ ascii "format=json", c ≠ 35 ∧ c ≠ 38 := by decide
  have hraw : rawQuery (addressQueryEscaped q)
      = ascii "q=" ++ QueryEscape q ++ 38 :: ascii "format=json" := by
    have e2 : ascii "&format=json" = 38 :: ascii "format=json" := by rfl
    unfold rawQuery addressQueryEscaped
    rw [e1, e2, List.append_assoc, List.append_assoc, List.cons_append,
      dropWhile_ne_append 63 _ _ n1, List.drop_succ_cons, List.drop_zero]
    apply takeWhile_ne_all
    intro c hc
    simp only [List.mem_append, List.mem_cons] at hc
    rcases hc with hc | hc | rfl | hc
    · exact (n2 c hc).1
    · exact (hsafe c hc).1
    · decide
    · exact (n3 c hc).1
  have hsplit : splitOn 38 (ascii "q=" ++ QueryEscape q ++ 38 :: ascii "format=json")
      = [ascii "q=" ++ QueryEscape q, ascii "format=json"] := by
    rw [splitOn_append 38 _ _ (by
      intro c hc
      rcases List.mem_append.1 hc with hc | hc
      · exact (n2 c hc).2
      · exact (hsafe c hc).2.1)]
    rw [splitOn_none 38 _ (fun c hc => (n3 c hc).2)]
  have hpair : parsePair (ascii "q=" ++ QueryEscape q) = some (ascii "q", q) := by
    have e3 : ascii "q=" ++ QueryEscape q = ascii "q" ++ 61 :: QueryEscape q := by rfl
    have hne : ascii "q" ++ 61 :: QueryEscape q ≠ [] := by simp [ascii]
    unfold parsePair
    rw [e3, if_neg hne, takeWhile_ne_append 61 _ _ (by decide),
      dropWhile_ne_append 61 _ _ (by decide), List.drop_succ_cons, List.drop_zero,
      QueryUnescape_QueryEscape q hq]
    rfl
  have hfmt : parsePair (ascii "format=json") = some (ascii "format", ascii "json") := by rfl
  unfold ParseQuery
  rw [hraw, hsplit]
  simp only [List.filterMap_cons, hpair, hfmt, List.filterMap_nil]

end QueryEscaping

section ConcreteBodies

/-- The body `null` decodes to the nil slice, whatever the `float64` operations are. -/
theorem Decode_null (S : Toolchain) : Decode S (ascii "null") = .ok none := by rfl

/-- The body `[ ]` decodes to the empty slice, which `Marshal` writes as `[]`. -/
theorem Decode_spaced_brackets (S : Toolchain) :
    Decode S (ascii "[ ]") = .ok (some []) ∧ Marshal S (some []) = some (ascii "[]") :=
  ⟨by rfl, by rfl⟩

end ConcreteBodies

/-- A call of `getData` leaves the store alone, or it is a successful miss-path
execution, which sets the entry of `q`. -/
theorem getData_store_cases (S : Toolchain) (env : Env) (st : Store) (q : Bytes) :
    (getData S env st q).store = st ∨
    ∃ body D b, cacheGet env st q = .error .Nil ∧ env.httpGet (address q) = .ok body
      ∧ Decode S body = .ok D ∧ Marshal S D = some b ∧ env.setFault = none
      ∧ (getData S env st q).store = st.set q b (Second * 15) env.setTime
      ∧ (getData S env st q).reply = ⟨D, false, none⟩
      ∧ (getData S env st q).calls
          = [Call.cacheGet q, Call.httpGet (address q), Call.cacheSet q b (Second * 15)] := by
  cases hget : cacheGet env st q with
  | ok value =>
    left
    cases hu : Unmarshal S value <;> simp only [getData, hget, hu]
  | error e =>
    cases e with
    | io c => left; simp only [getData, hget]
    | json j => left; simp only [getData, hget]
    | unsupportedValue => left; simp only [getData, hget]
    | Nil =>
      cases hh : env.httpGet (address q) with
      | error e => left; simp only [getData, hget, hh]
      | ok body =>
        cases hd : Decode S body with
        | error e => left; simp only [getData, hget, hh, hd]
        | ok data =>
          cases hm : Marshal S data with
          | none => left; simp only [getData, hget, hh, hd, hm]
          | some b =>
            cases hs : env.setFault with
            | some e => left; simp only [getData, hget, hh, hd, hm, hs]
            | none =>
              right
              exact ⟨body, data, b, rfl, rfl, hd, hm, rfl,
                by simp only [getData, hget, hh, hd, hm, hs],
                by simp only [getData, hget, hh, hd, hm, hs],
                by simp only [getData, hget, hh, hd, hm, hs]⟩

/-- A call of `getData` that returns the nil error is a cache hit whose entry decodes,
or a miss-path execution that fetched, decoded, serialized and stored. -/
theorem getData_success_cases (S : Toolchain) (env : Env) (st : Store) (q : Bytes)
    (hok : (getData S env st q).reply.err = none) :
    (∃ value D, cacheGet env st q = .ok value ∧ Unmarshal S value = .ok D
        ∧ (getData S env st q).reply = ⟨D, true, none⟩ ∧ (getData S env st q).store = st) ∨
    ∃ body D b, cacheGet env st q = .error .Nil ∧ env.httpGet (address q) = .ok body
      ∧ Decode S body = .ok D ∧ Marshal S D = some b ∧ env.setFault = none
      ∧ (getData S env st q).store = st.set q b (Second * 15) env.setTime
      ∧ (getData S env st q).reply = ⟨D, false, none⟩ := by
  cases hget : cacheGet env st q with
  | ok value =>
    cases hu : Unmarshal S value with
    | error e => simp [getData, hget, hu] at hok
    | ok D =>
      left
      exact ⟨value, D, rfl, hu, by simp only [getData, hget, hu],
        by simp only [getData, hget, hu]⟩
  | error e =>
    cases e with
    | io c => simp [getData, hget] at hok
    | json j => simp [getData, hget] at hok
    | unsupportedValue => simp [getData, hget] at hok
    | Nil =>
      cases hh : env.httpGet (address q) with
      | error e => simp [getData, hget, hh] at hok
      | ok body =>
        cases hd : Decode S body with
        | error e => simp [getData, hget, hh, hd] at hok
        | ok data =>
          cases hm : Marshal S data with
          | none => simp [getData, hget, hh, hd, hm] at hok
          | some b =>
            cases hs : env.setFault with
            | some e => simp [getData, hget, hh, hd, hm, hs] at hok
            | none =>
              right
              exact ⟨body, data, b, rfl, rfl, hd, hm, rfl,
                by simp only [getData, hget, hh, hd, hm, hs],
                by simp only [getData, hget, hh, hd, hm, hs]⟩

/-- A cache hit whose entry decodes: the reply and the only outward call. -/
theorem getData_of_hit (S : Toolchain) (env : Env) (st : Store) (q value : Bytes)
    (D : Results S) (hget : cacheGet env st q = .ok value)
    (hun : Unmarshal S value = .ok D) :
    (getData S env st q).reply = ⟨D, true, none⟩
      ∧ (getData S env st q).calls = [Call.cacheGet q] := by
  simp only [getData, hget, hun, and_self]

set_option maxRecDepth 1000000

/-! ## The claims of the specification -/

/-- C1 (miss path result): when the cache get for `q` reports `redis.Nil`, the upstream
call returns a body that decodes to `D`, and the cache set succeeds, `getData q` returns
exactly `D` (the decoded list itself, in its order) with `fromCache = false` and the nil
error. -/
theorem getData_miss_result (S : Toolchain) (hS : S.Lawful) (env : Env) (st : Store)
    (q body : Bytes) (D : Results S)
    (hget : cacheGet env st q = .error .Nil)
    (hhttp : env.httpGet (address q) = .ok body)
    (hdec : Decode S body = .ok D)
    (hset : env.setFault = none) :
    (getData S env st q).reply = ⟨D, false, none⟩ := by
  obtain ⟨b, hb⟩ := Marshal_isSome (Decode_encodable hS hdec)
  simp only [getData, hget, hhttp, hdec, hb, hset]

/-- C1 at a concrete input: the Boston scenario of the specification on the empty store. -/
theorem getData_miss_result_witness :
    (getData intFloats (envWith bostonBody 0) [] (ascii "Boston")).reply
      = ⟨some [boston], false, none⟩ :=
  getData_miss_result intFloats intFloats_lawful (envWith bostonBody 0) [] (ascii "Boston")
    bostonBody (some [boston]) (by rfl) (by rfl) (by rfl) (by rfl)

/-- C3 (fail-fast on cache read failure): when the cache get fails with an error other
than `redis.Nil`, `getData` returns that error with nil data and `fromCache = false`;
the only outward call is the cache get, so neither `http.Get` nor the cache set is
invoked, and the store is untouched. -/
theorem getData_cache_read_failure (S : Toolchain) (env : Env) (st : Store) (q : Bytes)
    (e : GoError) (hget : cacheGet env st q = .error e) (hne : e ≠ GoError.Nil) :
    (getData S env st q).reply = ⟨none, false, some e⟩
      ∧ (getData S env st q).calls = [Call.cacheGet q]
      ∧ (getData S env st q).store = st := by
  cases e with
  | Nil => exact absurd rfl hne
  | io c => simp only [getData, hget, and_self]
  | json j => simp only [getData, hget, and_self]
  | unsupportedValue => simp only [getData, hget, and_self]

/-- C3 at a concrete input: the Redis client fails with error 111 at the cache get. -/
theorem getData_cache_read_failure_witness :
    (getData intFloats ⟨0, some (.io 111), fun _ => .ok bostonBody, 1, none⟩ []
        (ascii "Boston")).reply = ⟨none, false, some (.io 111)⟩
      ∧ (getData intFloats ⟨0, some (.io 111), fun _ => .ok bostonBody, 1, none⟩ []
        (ascii "Boston")).calls = [Call.cacheGet (ascii "Boston")]
      ∧ (getData intFloats ⟨0, some (.io 111), fun _ => .ok bostonBody, 1, none⟩ []
        (ascii "Boston")).store = [] :=
  getData_cache_read_failure intFloats ⟨0, some (.io 111), fun _ => .ok bostonBody, 1, none⟩
    [] (ascii "Boston") (.io 111) (by rfl) (by decide)

/-- C5 (cache write failure aborts): on a miss whose upstream fetch succeeds (the body
decodes to `D`), a rejected cache set makes `getData` return the set's error with nil
data and `fromCache = false`, not `D`; the store is unchanged. -/
theorem getData_cache_write_failure (S : Toolchain) (hS : S.Lawful) (env : Env) (st : Store)
    (q body : Bytes) (D : Results S) (e : GoError)
    (hget : cacheGet env st q = .error .Nil)
    (hhttp : env.httpGet (address q) = .ok body)
    (hdec : Decode S body = .ok D)
    (hset : env.setFault = some e) :
    (getData S env st q).reply = ⟨none, false, some e⟩
      ∧ (getData S env st q).store = st := by
  obtain ⟨b, hb⟩ := Marshal_isSome (Decode_encodable hS hdec)
  simp only [getData, hget, hhttp, hdec, hb, hset, and_self]

/-- C5 at a concrete input: the Boston body is fetched and the cache set fails with error 7. -/
theorem getData_cache_write_failure_witness :
    (getData intFloats ⟨0, none, fun _ => .ok bostonBody, 1, some (.io 7)⟩ []
        (ascii "Boston")).reply = ⟨none, false, some (.io 7)⟩
      ∧ (getData intFloats ⟨0, none, fun _ => .ok bostonBody, 1, some (.io 7)⟩ []
        (ascii "Boston")).store = [] :=
  getData_cache_write_failure intFloats intFloats_lawful
    ⟨0, none, fun _ => .ok bostonBody, 1, some (.io 7)⟩ [] (ascii "Boston") bostonBody
    (some [boston]) (.io 7) (by rfl) (by rfl) (by rfl) (by rfl)

/-- C6 (cache write shape): a call of `getData q` that succeeds without a cache hit
makes exactly one cache set; its key is `q` itself, its time-to-live is
`time.Second*15`, which is 15 seconds; the store afterwards is the old store with that
one entry set, so every other key reads as before. -/
theorem getData_miss_writes_once (S : Toolchain) (env : Env) (st : Store) (q : Bytes)
    (hok : (getData S env st q).reply.err = none)
    (hmiss : (getData S env st q).reply.cacheHit = false) :
    ∃ b, (getData S env st q).calls
          = [Call.cacheGet q, Call.httpGet (address q), Call.cacheSet q b (Second * 15)]
      ∧ Second * 15 = 15 * 1000000000
      ∧ (getData S env st q).store = st.set q b (Second * 15) env.setTime
      ∧ ∀ k, k ≠ q → ∀ t, (getData S env st q).store.lookup k t = st.lookup k t := by
  unfold getData at hok hmiss ⊢
  cases hget : cacheGet env st q with
  | ok value =>
    simp only [hget] at hok hmiss
    cases hu : Unmarshal S value with
    | error e => simp [hu] at hok
    | ok d => simp [hu] at hmiss
  | error e =>
    cases e with
    | io c => simp [hget] at hok
    | json j => simp [hget] at hok
    | unsupportedValue => simp [hget] at hok
    | Nil =>
      simp only [hget] at hok ⊢
      cases hh : env.httpGet (address q) with
      | error e => simp [hh] at hok
      | ok body =>
        simp only [hh] at hok ⊢
        cases hd : Decode S body with
        | error e => simp [hd] at hok
        | ok data =>
          simp only [hd] at hok ⊢
          cases hm : Marshal S data with
          | none => simp [hm] at hok
          | some b =>
            simp only [hm] at hok ⊢
            cases hs : env.setFault with
            | some e => simp [hs] at hok
            | none =>
              refine ⟨b, rfl, by decide, rfl, ?_⟩
              intro k hk t
              exact Store.lookup_set_ne st q b _ _ k hk t

/-- C6 at a concrete input: the query `a B&c` is the key of the one cache set, as it is. -/
theorem getData_miss_writes_once_witness :
    ∃ b, (getData intFloats (envWith bostonBody 0) [] (ascii "a B&c")).calls
          = [Call.cacheGet (ascii "a B&c"), Call.httpGet (address (ascii "a B&c")),
              Call.cacheSet (ascii "a B&c") b (Second * 15)]
      ∧ Second * 15 = 15 * 1000000000
      ∧ (getData intFloats (envWith bostonBody 0) [] (ascii "a B&c")).store
          = Store.set [] (ascii "a B&c") b (Second * 15) (envWith bostonBody 0).setTime
      ∧ ∀ k, k ≠ ascii "a B&c" → ∀ t,
          (getData intFloats (envWith bostonBody 0) [] (ascii "a B&c")).store.lookup k t
            = Store.lookup [] k t :=
  getData_miss_writes_once intFloats (envWith bostonBody 0) [] (ascii "a B&c")
    (by rfl) (by rfl)

/-- C10 (corrupt cache entry): when the entry of `q` is present but `json.Unmarshal`
rejects its bytes, `getData` returns that decode error with nil data and
`fromCache = false`; the only outward call is the cache get, so upstream is not asked
and the entry is not overwritten. -/
theorem getData_corrupt_entry (S : Toolchain) (env : Env) (st : Store) (q value : Bytes)
    (e : JsonErr) (hget : cacheGet env st q = .ok value)
    (hbad : Unmarshal S value = .error e) :
    (getData S env st q).reply = ⟨none, false, some (.json e)⟩
      ∧ (getData S env st q).calls = [Call.cacheGet q]
      ∧ (getData S env st q).store = st := by
  simp only [getData, hget, hbad, and_self]

/-- C10 at a concrete input: the entry of `Boston` holds a truncated JSON text. -/
theorem getData_corrupt_entry_witness :
    (getData intFloats (envWith bostonBody 5) [(ascii "Boston", ⟨ascii "[\x7b\"place", 99⟩)]
        (ascii "Boston")).reply = ⟨none, false, some (.json .malformed)⟩
      ∧ (getData intFloats (envWith bostonBody 5)
          [(ascii "Boston", ⟨ascii "[\x7b\"place", 99⟩)] (ascii "Boston")).calls
          = [Call.cacheGet (ascii "Boston")]
      ∧ (getData intFloats (envWith bostonBody 5)
          [(ascii "Boston", ⟨ascii "[\x7b\"place", 99⟩)] (ascii "Boston")).store
          = [(ascii "Boston", ⟨ascii "[\x7b\"place", 99⟩)] :=
  getData_corrupt_entry intFloats (envWith bostonBody 5)
    [(ascii "Boston", ⟨ascii "[\x7b\"place", 99⟩)] (ascii "Boston") (ascii "[\x7b\"place")
    .malformed (by rfl) (by rfl)

/-- C8 (query escaping), evaluated at the queries `a&format=xml` and `a+b`:
`url.PathEscape` leaves `&`, `=` and `+` alone, so the first address carries a second
`format` parameter taken from the query text and its `q` reads back as `a`; in the
second, `q` reads back as `a b`. -/
theorem address_query_not_preserved :
    address (ascii "a&format=xml")
        = ascii "https://nominatim.openstreetmap.org/search?q=a&format=xml&format=json"
      ∧ ParseQuery (rawQuery (address (ascii "a&format=xml")))
        = [(ascii "q", ascii "a"), (ascii "format", ascii "xml"), (ascii "format", ascii "json")]
      ∧ ParseQuery (rawQuery (address (ascii "a+b")))
        = [(ascii "q", ascii "a b"), (ascii "format", ascii "json")] := by
  refine ⟨by rfl, by rfl, by rfl⟩

/-- C4, counterexample: the body `null` is not a JSON array, yet on a miss `getData`
returns the nil error (with nil data), invokes the cache set and leaves the entry
`null` in the store. -/
theorem getData_accepts_null_body :
    (∀ es, readFirst (ascii "null") ≠ some (JSON.arr es))
      ∧ (getData intFloats (envWith (ascii "null") 0) [] (ascii "x")).reply
          = ⟨none, false, none⟩
      ∧ (getData intFloats (envWith (ascii "null") 0) [] (ascii "x")).calls
          = [Call.cacheGet (ascii "x"), Call.httpGet (address (ascii "x")),
              Call.cacheSet (ascii "x") (ascii "null") (Second * 15)]
      ∧ (getData intFloats (envWith (ascii "null") 0) [] (ascii "x")).store
          = [(ascii "x", ⟨ascii "null", 15001000000⟩)] := by
  refine ⟨?_, by rfl, by rfl, by rfl⟩
  intro es h
  have h2 : readFirst (ascii "null") = some JSON.null := by rfl
  rw [h2] at h
  cases h

/-- C4, amended (malformed upstream response): on a miss, when the first JSON value of
the upstream body is neither an array nor `null` (also when the body does not start with
a JSON value at all), `getData` fails with a decode error and nil data, makes no cache
set, and leaves the store unchanged. -/
theorem getData_rejects_non_array (S : Toolchain) (env : Env) (st : Store) (q body : Bytes)
    (hget : cacheGet env st q = .error .Nil)
    (hhttp : env.httpGet (address q) = .ok body)
    (harr : ∀ es, readFirst body ≠ some (JSON.arr es))
    (hnull : readFirst body ≠ some JSON.null) :
    ∃ e, (getData S env st q).reply = ⟨none, false, some (.json e)⟩
      ∧ (getData S env st q).calls = [Call.cacheGet q, Call.httpGet (address q)]
      ∧ (getData S env st q).store = st := by
  have hd : ∃ e, Decode S body = .error e := by
    unfold Decode
    cases hv : readFirst body with
    | none => exact ⟨_, rfl⟩
    | some v =>
      cases v with
      | null => exact absurd hv hnull
      | arr es => exact absurd hv (harr es)
      | bool b => exact ⟨_, rfl⟩
      | num lit => exact ⟨_, rfl⟩
      | str s => exact ⟨_, rfl⟩
      | obj kvs => exact ⟨_, rfl⟩
  obtain ⟨e, he⟩ := hd
  exact ⟨e, by simp only [getData, hget, hhttp, he, and_self]⟩

/-- C4, amended, at a concrete input: the body is the JSON object with the one member `error`. -/
theorem getData_rejects_non_array_witness :
    ∃ e, (getData intFloats (envWith (ascii "\x7b\"error\":\"x\"\x7d") 0) []
          (ascii "x")).reply = ⟨none, false, some (.json e)⟩
      ∧ (getData intFloats (envWith (ascii "\x7b\"error\":\"x\"\x7d") 0) []
          (ascii "x")).calls = [Call.cacheGet (ascii "x"), Call.httpGet (address (ascii "x"))]
      ∧ (getData intFloats (envWith (ascii "\x7b\"error\":\"x\"\x7d") 0) []
          (ascii "x")).store = [] :=
  getData_rejects_non_array intFloats (envWith (ascii "\x7b\"error\":\"x\"\x7d") 0) []
    (ascii "x") (ascii "\x7b\"error\":\"x\"\x7d") (by rfl) (by rfl)
    (by
      intro es h
      have h2 : readFirst (ascii "\x7b\"error\":\"x\"\x7d")
          = some (JSON.obj [(ascii "error", JSON.str (ascii "x"))]) := by rfl
      rw [h2] at h
      cases h)
    (by
      intro h
      have h2 : readFirst (ascii "\x7b\"error\":\"x\"\x7d")
          = some (JSON.obj [(ascii "error", JSON.str (ascii "x"))]) := by rfl
      rw [h2] at h
      cases h)

/-- C7, counterexample: upstream sends the three bytes `[ ]` (bracket, space, bracket);
the entry written holds the two bytes `[]`, which is not what was received. -/
theorem stored_value_is_not_the_body :
    (getData intFloats (envWith (ascii "[ ]") 0) [] (ascii "x")).store
        = [(ascii "x", ⟨ascii "[]", 15001000000⟩)]
      ∧ ascii "[]" ≠ ascii "[ ]" := by
  refine ⟨by rfl, by decide⟩

/-- C7, amended (stored-value invariant): in every store reached from the empty store,
each entry `(k, e)` was written by a call of `getData k` recorded in the history. That
call found a reachable store, took the miss path and succeeded; the body it received
from upstream decoded to `D`, which it returned; the value of the entry is
`json.Marshal(D)`, the argument of its one cache set, not the body; the entry is in the
store that call left and expires 15 seconds after its write. -/
theorem reachable_entry_origin (S : Toolchain) (hist : List Execution) (st : Store)
    (h : Run S hist st) (k : Bytes) (e : Entry) (hmem : (k, e) ∈ st) :
    ∃ x ∈ hist, x.q = k
      ∧ (∃ hist0, Run S hist0 x.before)
      ∧ cacheGet x.env x.before k = .error .Nil
      ∧ (getData S x.env x.before k).calls
          = [Call.cacheGet k, Call.httpGet (address k), Call.cacheSet k e.value (Second * 15)]
      ∧ (k, e) ∈ (getData S x.env x.before k).store
      ∧ e.expiry = x.env.setTime + Second * 15
      ∧ ∃ body D, x.env.httpGet (address k) = .ok body
        ∧ Decode S body = .ok D
        ∧ (getData S x.env x.before k).reply = ⟨D, false, none⟩
        ∧ Marshal S D = some e.value := by
  induction h with
  | empty => cases hmem
  | evict key _ ih => exact ih (List.mem_filter.1 hmem).1
  | @call hist1 st1 env q h1 ih =>
    rcases getData_store_cases S env st1 q with hs | ⟨body, D, b, hg, hh, hd, hm, hf, hs, hr, hc⟩
    · rw [hs] at hmem
      obtain ⟨x, hx, rest⟩ := ih hmem
      exact ⟨x, List.mem_cons_of_mem _ hx, rest⟩
    · rw [hs] at hmem
      unfold Store.set at hmem
      rcases List.mem_cons.1 hmem with heq | hin
      · cases heq
        refine ⟨⟨env, st1, k⟩, List.mem_cons_self _ _, rfl, ⟨hist1, h1⟩, hg, hc, ?_, rfl,
          body, D, hh, hd, hr, hm⟩
        show (k, Entry.mk b (env.setTime + Second * 15)) ∈ (getData S env st1 k).store
        rw [hs]
        exact List.mem_cons_self _ _
      · obtain ⟨x, hx, rest⟩ := ih (List.mem_filter.1 hin).1
        exact ⟨x, List.mem_cons_of_mem _ hx, rest⟩

/-- C7, amended, at a concrete input: the entry left by the Boston scenario. -/
theorem reachable_entry_origin_witness :
    ∃ x ∈ [Execution.mk (envWith bostonBody 0) [] (ascii "Boston")], x.q = ascii "Boston"
      ∧ (∃ hist0, Run intFloats hist0 x.before)
      ∧ cacheGet x.env x.before (ascii "Boston") = .error .Nil
      ∧ (getData intFloats x.env x.before (ascii "Boston")).calls
          = [Call.cacheGet (ascii "Boston"), Call.httpGet (address (ascii "Boston")),
              Call.cacheSet (ascii "Boston") (Entry.mk bostonBody 15001000000).value
                (Second * 15)]
      ∧ (ascii "Boston", Entry.mk bostonBody 15001000000)
          ∈ (getData intFloats x.env x.before (ascii "Boston")).store
      ∧ (Entry.mk bostonBody 15001000000).expiry = x.env.setTime + Second * 15
      ∧ ∃ body D, x.env.httpGet (address (ascii "Boston")) = .ok body
        ∧ Decode intFloats body = .ok D
        ∧ (getData intFloats x.env x.before (ascii "Boston")).reply = ⟨D, false, none⟩
        ∧ Marshal intFloats D = some (Entry.mk bostonBody 15001000000).value :=
  reachable_entry_origin intFloats [Execution.mk (envWith bostonBody 0) [] (ascii "Boston")]
    (getData intFloats (envWith bostonBody 0) [] (ascii "Boston")).store
    (Run.call (envWith bostonBody 0) (ascii "Boston") Run.empty)
    (ascii "Boston") ⟨bostonBody, 15001000000⟩
    (show (ascii "Boston", Entry.mk bostonBody 15001000000)
        ∈ [(ascii "Boston", Entry.mk bostonBody 15001000000)] from List.mem_cons_self _ _)

/-- C2, counterexample: the first call for `Boston` succeeds on the empty store; the
second call, five seconds later on the store the first call left, meets a Redis client
error at its cache get and returns that error, not a cache hit. -/
theorem second_call_fails_when_get_fails :
    (getData intFloats (envWith bostonBody 0) [] (ascii "Boston")).reply
        = ⟨some [boston], false, none⟩
      ∧ (getData intFloats
          ⟨5 * Second, some (.io 104), fun _ => .ok bostonBody, 5 * Second + 1, none⟩
          (getData intFloats (envWith bostonBody 0) [] (ascii "Boston")).store
          (ascii "Boston")).reply = ⟨none, false, some (.io 104)⟩ := by
  refine ⟨by rfl, by rfl⟩

/-- C2, amended (hit after miss): when `q` is absent from the store, `getData q`
succeeds, and `getData q` is called again on the store the first call left (nothing
evicted), less than 15 seconds after the entry was written and with the cache get of the
second call not failing, then the second call returns `fromCache = true` with the very
results of the first call (so their serializations are equal), and its only outward call
is the cache get: upstream is not invoked. -/
theorem getData_hit_after_miss (S : Toolchain) (hS : S.Lawful) (env1 env2 : Env) (st : Store)
    (q : Bytes)
    (habsent : st.lookup q env1.getTime = none)
    (hok : (getData S env1 st q).reply.err = none)
    (hup : env2.getFault = none)
    (hsoon : env2.getTime < env1.setTime + Second * 15) :
    (getData S env2 (getData S env1 st q).store q).reply
        = ⟨(getData S env1 st q).reply.data, true, none⟩
      ∧ Marshal S (getData S env2 (getData S env1 st q).store q).reply.data
        = Marshal S (getData S env1 st q).reply.data
      ∧ (getData S env2 (getData S env1 st q).store q).calls = [Call.cacheGet q] := by
  rcases getData_success_cases S env1 st q hok with
    ⟨value, D, hg, -, -, -⟩ | ⟨body, D, b, hg, hh, hd, hm, hf, hs, hr⟩
  · unfold cacheGet at hg
    rw [habsent] at hg
    cases hfault : env1.getFault with
    | none => rw [hfault] at hg; cases hg
    | some e => rw [hfault] at hg; cases hg
  · have hget2 : cacheGet env2 (getData S env1 st q).store q = .ok b := by
      unfold cacheGet
      rw [hup, hs, Store.lookup_set_self, if_pos hsoon]
    have hun : Unmarshal S b = .ok D := Unmarshal_Marshal hS D (Decode_wellFormed hd) b hm
    obtain ⟨hrep, hcalls⟩ := getData_of_hit S env2 _ q b D hget2 hun
    refine ⟨?_, ?_, hcalls⟩
    · rw [hrep, hr]
    · rw [hrep, hr]

/-- C2, amended, at a concrete input: the Boston scenario, asked again five seconds later. -/
theorem getData_hit_after_miss_witness :
    (getData intFloats (envWith bostonBody (5 * Second))
        (getData intFloats (envWith bostonBody 0) [] (ascii "Boston")).store
        (ascii "Boston")).reply
        = ⟨(getData intFloats (envWith bostonBody 0) [] (ascii "Boston")).reply.data, true, none⟩
      ∧ Marshal intFloats (getData intFloats (envWith bostonBody (5 * Second))
          (getData intFloats (envWith bostonBody 0) [] (ascii "Boston")).store
          (ascii "Boston")).reply.data
        = Marshal intFloats (getData intFloats (envWith bostonBody 0) []
            (ascii "Boston")).reply.data
      ∧ (getData intFloats (envWith bostonBody (5 * Second))
          (getData intFloats (envWith bostonBody 0) [] (ascii "Boston")).store
          (ascii "Boston")).calls = [Call.cacheGet (ascii "Boston")] :=
  getData_hit_after_miss intFloats intFloats_lawful (envWith bostonBody 0)
    (envWith bostonBody (5 * Second)) [] (ascii "Boston") (by rfl) (by rfl) (by rfl)
    (by decide)

end GeoCache
